import Mathlib

/-!
# Verification of the dsnet/file-server request-resolution core

A shallow embedding of the Go file server's request dispatcher, path
normalization, directory enumeration, rooted filesystem abstraction, and
size/time formatters, with theorems settling the specification claims.

Strings are modelled by Lean `String` (a list of characters); the byte-level
Go string operations used by the server are ASCII-only, so the embedding is
exact on the inputs the server manipulates.
-/

/-! ## Path segments and Go `path.Clean`

Go's `path.Clean` is lexically equivalent to: split the path on `/`,
drop empty and `.` elements, process `..` elements against a stack
(pop a non-`..` top; at an empty stack, drop the `..` when rooted and
keep it otherwise), and reassemble.  The definitions below implement
exactly that on `List Char`.
-/

/-- A path segment: the characters between two slashes. -/
abbrev Seg := List Char

/-- Split a character list on `'/'`, like Go's element scanning of a path.
The result is always nonempty; `n` slashes yield `n+1` segments. -/
def splitSlash : List Char → List Seg
  | [] => [[]]
  | c :: cs =>
    let r := splitSlash cs
    if c = '/' then [] :: r
    else (c :: r.headI) :: r.tail

/-- Join segments with `'/'`, the inverse of `splitSlash` on slash-free
segments. -/
def joinSlash : List Seg → List Char
  | [] => []
  | [s] => s
  | s :: ss => s ++ '/' :: joinSlash ss

/-- A segment that `path.Clean` neither skips nor treats as a backtrack:
nonempty, not `.`, not `..`. -/
def goodSeg (s : Seg) : Bool :=
  ¬(s = [] ∨ s = ['.'] ∨ s = ['.', '.'])

/-- Whether a path is rooted (begins with `'/'`), as Go's
`path[0] == '/'` test. -/
def isRooted : List Char → Bool
  | [] => false
  | c :: _ => c = '/'

/-- The element-processing loop of Go `path.Clean`: `acc` is the stack of
emitted elements, most recent first.  Empty and `.` elements are dropped;
`..` pops a non-`..` top, is dropped at an empty stack when rooted, and is
kept otherwise. -/
def cleanFold (rooted : Bool) : List Seg → List Seg → List Seg
  | acc, [] => acc
  | acc, s :: rest =>
    if s = [] ∨ s = ['.'] then cleanFold rooted acc rest
    else if s = ['.', '.'] then
      match acc with
      | [] => if rooted then cleanFold rooted [] rest else cleanFold rooted [s] rest
      | t :: acc' =>
        if t = ['.', '.'] then cleanFold rooted (s :: t :: acc') rest
        else cleanFold rooted acc' rest
    else cleanFold rooted (s :: acc) rest

/-- Go `path.Clean` on a character list. -/
def cleanChars (p : List Char) : List Char :=
  if p = [] then ['.']
  else
    let rooted := isRooted p
    let out := (cleanFold rooted [] (splitSlash p)).reverse
    if rooted then '/' :: joinSlash out
    else if out = [] then ['.'] else joinSlash out

/-- Go `path.Clean`. -/
def pathClean (s : String) : String := ⟨cleanChars s.data⟩

/-- The final reassembly step of `path.Clean`: prefix a slash when rooted,
render an empty relative result as `"."`. -/
def assembleChars (rooted : Bool) (out : List Seg) : List Char :=
  if rooted then '/' :: joinSlash out
  else if out = [] then ['.'] else joinSlash out

/-- Last character is `'/'`, as Go `strings.HasSuffix(s, "/")`. -/
def endsWithSlash (l : List Char) : Bool := l.getLast? = some '/'

/-- Go `strings.HasSuffix(s, "/")`. -/
def hasSlashSuffix (s : String) : Bool := endsWithSlash s.data

/-- Go `strings.TrimPrefix(s, "/")`: drop one leading slash if present. -/
def trimLeadingSlash (l : List Char) : List Char :=
  match l with
  | [] => []
  | c :: rest => if c = '/' then rest else c :: rest

/-- The URL-path normalization at the top of `Server.ServeHTTP`
(src/unnamed/part_000 lines 56-60):

    hadSlashSuffix := strings.HasSuffix(r.URL.Path, "/")
    r.URL.Path = "/" + strings.TrimPrefix(path.Clean(r.URL.Path), "/")
    if !strings.HasSuffix(r.URL.Path, "/") && hadSlashSuffix {
        r.URL.Path += "/"
    }
-/
def normChars (p : List Char) : List Char :=
  let hadSlash := endsWithSlash p
  let q := '/' :: trimLeadingSlash (cleanChars p)
  if ¬endsWithSlash q ∧ hadSlash then q ++ ['/'] else q

/-- The server's path normalization, on `String`. -/
def normalizePath (s : String) : String := ⟨normChars s.data⟩

/-- Go `path.Base`: the last element of the path after stripping trailing
slashes; `"."` for the empty path and `"/"` for an all-slash path. -/
def baseChars (p : List Char) : List Char :=
  if p = [] then ['.']
  else
    let p1 := (p.reverse.dropWhile (· = '/')).reverse
    let p2 := (p1.reverse.takeWhile (· ≠ '/')).reverse
    if p2 = [] then ['/'] else p2

/-- Go `path.Base`. -/
def pathBase (s : String) : String := ⟨baseChars s.data⟩

/-- `filepath.Join(".", filepath.FromSlash(urlPath))`: the key under which
`ServeHTTP` opens the request path against the root filesystem.  On Unix,
`filepath.Join` of nonempty elements is `path.Clean` of their
slash-concatenation. -/
def openKey (urlPath : String) : String := pathClean ("./" ++ urlPath)

/-- `filepath.Join(".", filepath.FromSlash(urlPath), name)`: the key used to
stat or open an entry of the directory at `urlPath`. -/
def entryKey (urlPath name : String) : String :=
  pathClean ("./" ++ urlPath ++ "/" ++ name)

/-! ## The HTTP server model (src/unnamed/part_000)

`Server.ServeHTTP`, `serveDirectory`, `serveFile`, `relativeRedirect`,
`regexpMatch` and `httpError` are embedded as pure functions from an
abstract filesystem and request to a response value.  The filesystem is a
pair of oracles (`Open` and `fs.Stat`) keyed by the cleaned path strings
the Go code passes them; an open file carries the results of the calls the
handler can make on it (`Stat`, `ReadDir` when it is an `fs.ReadDirFile`,
`ReadAll` when it is not an `io.ReadSeeker`). -/

/-- The error classes distinguished by `httpError`'s `switch`:
`os.IsNotExist`, `os.IsPermission`, `os.ErrInvalid`, and every other error
(which the switch's `default` branch lumps together). -/
inductive GoErr where
  | notExist
  | permission
  | invalid
  | other
  deriving DecidableEq, Repr

/-- `fs.FileInfo`: name, size, modification time (Unix seconds), and the
directory/regular mode bits read by the handler. -/
structure FInfo where
  name : String
  size : Int
  modTime : Int
  isDir : Bool
  isRegular : Bool
  deriving DecidableEq, Repr

/-- `fs.DirEntry`: its name, whether its type has the symlink bit set, and
the result of `Info()` (`none` models a nil `FileInfo` from a failed
lookup). -/
structure DEntry where
  name : String
  isSymlink : Bool
  info : Option FInfo
  deriving DecidableEq, Repr

/-- Decidable equality for `Except` results, used to evaluate the model
on concrete filesystems. -/
def exceptDecEq {ε α : Type} [DecidableEq ε] [DecidableEq α] :
    DecidableEq (Except ε α)
  | .error e1, .error e2 =>
    if h : e1 = e2 then isTrue (by rw [h])
    else isFalse (fun hh => h (by cases hh; rfl))
  | .error _, .ok _ => isFalse (fun h => Except.noConfusion h)
  | .ok _, .error _ => isFalse (fun h => Except.noConfusion h)
  | .ok a1, .ok a2 =>
    if h : a1 = a2 then isTrue (by rw [h])
    else isFalse (fun hh => h (by cases hh; rfl))

instance {ε α : Type} [DecidableEq ε] [DecidableEq α] :
    DecidableEq (Except ε α) := exceptDecEq

/-- An open `fs.File`: the result of `Stat`, the result of `ReadDir`
(`none` when the handle is not an `fs.ReadDirFile`), whether the handle is
an `io.ReadSeeker`, and the result of `io.ReadAll` for non-seekable
handles. -/
structure FileH where
  stat : Except GoErr FInfo
  readDir : Option (Except GoErr (List DEntry))
  seekable : Bool
  readAll : Except GoErr Unit
  deriving DecidableEq

/-- The root filesystem: `Open` and `fs.Stat` oracles keyed by the path
strings the handler constructs (`filepath.Join` results). -/
structure GoFS where
  openF : String → Except GoErr FileH
  statF : String → Except GoErr FInfo

/-- A compiled `*regexp.Regexp`, abstracted to its match predicate; `none`
is a nil pattern. -/
def Rx := Option (String → Bool)

/-- `regexpMatch(r, s)`: `r != nil && r.MatchString(s)`
(src/unnamed/part_000 lines 206-210). -/
def regexpMatch (r : Rx) (s : String) : Bool :=
  match r with
  | none => false
  | some f => f s

/-- The `Server` configuration: the three optional patterns and the
sendfile toggle (`root` is passed separately as the `GoFS`). -/
structure Server where
  hideRx : Rx
  denyRx : Rx
  indexRx : Rx
  sendfile : Bool

/-- One row of the listing model marshalled to the client
(the `fileInfo` struct in `serveDirectory`): name (with `/` appended for
directories), size (0 unless a regular file), date (Unix seconds). -/
structure FileEntry where
  name : String
  size : Int
  date : Int
  deriving DecidableEq, Repr

/-- The observable response of one handler invocation. -/
inductive HResp where
  /-- `httpError`: an HTML error page with the given status code. -/
  | error (code : Nat) (err : GoErr)
  /-- `relativeRedirect`: status 301 with the given `Location` value. -/
  | redirect (code : Nat) (location : String)
  /-- A rendered directory listing built from the given model. -/
  | listing (entries : List FileEntry)
  /-- `http.ServeContent` of the file at the given logical path and
  modification time. -/
  | content (path : String) (modTime : Int)
  deriving DecidableEq, Repr

/-- `httpError` (src/unnamed/part_000 lines 237-251): `os.IsNotExist` maps
to 404, `os.IsPermission` to 403, and everything else — including
`os.ErrInvalid` — falls to the `default` branch, 500. -/
def httpError (e : GoErr) : HResp :=
  .error
    (match e with
     | .notExist => 404
     | .permission => 403
     | _ => 500)
    e

/-- `relativeRedirect` (src/unnamed/part_000 lines 198-204): append
`?`+query when the raw query is nonempty, set `Location`, status 301. -/
def relativeRedirect (rawQuery urlPath : String) : HResp :=
  .redirect 301 (if rawQuery ≠ "" then urlPath ++ "?" ++ rawQuery else urlPath)

/-- `Server.serveFile` (src/unnamed/part_000 lines 178-196): redirect to
`./` when redirects are allowed and the path matches the index pattern;
otherwise buffer a non-seekable stream (failing with `httpError` if
`ReadAll` fails) and delegate to `http.ServeContent`. -/
def serveFile (s : Server) (urlPath rawQuery : String) (f : FileH)
    (modTime : Int) (allowRedirect : Bool) : HResp :=
  if allowRedirect ∧ regexpMatch s.indexRx urlPath then
    relativeRedirect rawQuery "./"
  else if f.seekable then .content urlPath modTime
  else
    match f.readAll with
    | .error e => httpError e
    | .ok _ => .content urlPath modTime

/-- The per-entry `fs.FileInfo` resolution in `serveDirectory`
(src/unnamed/part_000 lines 126-135): non-symlinks use `fe.Info()`,
symlinks are statted through the root; a nil result means the entry is
skipped. -/
def resolveInfo (fsm : GoFS) (urlPath : String) (fe : DEntry) : Option FInfo :=
  if ¬fe.isSymlink then fe.info
  else
    match fsm.statF (entryKey urlPath fe.name) with
    | .ok fi => some fi
    | .error _ => none

/-- The listing row built for one resolved entry (src/unnamed/part_000
lines 154-162): directories get a `/` suffix, only regular files report a
size. -/
def mkEntry (fi : FInfo) : FileEntry :=
  { name := fi.name ++ (if fi.isDir then "/" else "")
    size := if fi.isRegular then fi.size else 0
    date := fi.modTime }

/-- The enumeration loop of `serveDirectory` (src/unnamed/part_000 lines
124-163): resolve each entry (dropping it on a nil `FileInfo`), skip
entries matching the hide or deny patterns, short-circuit into `serveFile`
(with redirects disabled and the request path rewritten) on the first
entry matching the index pattern, and otherwise append a row. -/
def dirLoop (s : Server) (fsm : GoFS) (urlPath rawQuery : String)
    (acc : List FileEntry) : List DEntry → HResp
  | [] => .listing acc.reverse
  | fe :: rest =>
    match resolveInfo fsm urlPath fe with
    | none => dirLoop s fsm urlPath rawQuery acc rest
    | some fi =>
      let entryPath := urlPath ++ "/" ++ fi.name
      if regexpMatch s.hideRx entryPath ∨ regexpMatch s.denyRx entryPath then
        dirLoop s fsm urlPath rawQuery acc rest
      else if regexpMatch s.indexRx entryPath then
        match fsm.openF (entryKey urlPath fi.name) with
        | .error e => httpError e
        | .ok f2 => serveFile s entryPath rawQuery f2 fi.modTime false
      else dirLoop s fsm urlPath rawQuery (mkEntry fi :: acc) rest

/-- `Server.serveDirectory` (src/unnamed/part_000 lines 105-176): a handle
that is not an `fs.ReadDirFile` yields `httpError(os.ErrInvalid)`; a
failing `ReadDir` yields `httpError` of its error; otherwise the
enumeration loop runs. -/
def serveDirectory (s : Server) (fsm : GoFS) (urlPath rawQuery : String)
    (f : FileH) : HResp :=
  match f.readDir with
  | none => httpError .invalid
  | some (.error e) => httpError e
  | some (.ok fes) => dirLoop s fsm urlPath rawQuery [] fes

/-- `Server.ServeHTTP` (src/unnamed/part_000 lines 50-103): normalize the
path, open and stat it (errors become `httpError`), issue a relative
redirect on a directory/trailing-slash mismatch, reject deny-matching
paths with `os.ErrPermission`, and dispatch to `serveDirectory` or
`serveFile`. -/
def serveHTTP (s : Server) (fsm : GoFS) (rawPath rawQuery : String) : HResp :=
  let p := normalizePath rawPath
  match fsm.openF (openKey p) with
  | .error e => httpError e
  | .ok f =>
    match f.stat with
    | .error e => httpError e
    | .ok fi =>
      if fi.isDir ≠ hasSlashSuffix p then
        if fi.isDir then relativeRedirect rawQuery (pathBase p ++ "/")
        else relativeRedirect rawQuery ("../" ++ pathBase p)
      else if regexpMatch s.denyRx p then httpError .permission
      else if fi.isDir then serveDirectory s fsm p rawQuery f
      else serveFile s p rawQuery f fi.modTime true

/-! ## The rooted filesystem abstraction (src/internal/fsx/dir.go)

`dirFS` wraps a root path string; every operation validates its name with
`fs.ValidPath` before joining it onto the root with `filepath.Join`.  The
OS layer (`os.Stat`, `os.Open`, …) is an oracle keyed by the joined
path. -/

/-- `fs.ValidPath(name)`: `"."` is valid, and otherwise every
slash-separated element must be nonempty and differ from `"."` and
`".."`.  (The UTF-8 validity test is vacuous here since Lean characters
are Unicode scalar values.) -/
def validPath (name : String) : Bool :=
  name.data = ['.'] ∨ (splitSlash name.data).all goodSeg

/-- `filepath.Join(dir, filepath.FromSlash(name))` for a nonempty `dir` on
a slash-separated system: `path.Clean` of the slash-concatenation. -/
def filepathJoin (dir name : String) : String := pathClean (dir ++ "/" ++ name)

/-- The result of `dirFS.join` (src/internal/fsx/dir.go lines 106-116): an
empty root yields a `*fs.PathError` wrapping `errors.New("Dir with empty
root")` (an `other` error), an invalid name yields one wrapping
`fs.ErrInvalid`, and otherwise the name is joined onto the root.  The `op`
string only labels the error. -/
def dirJoin (dir op name : String) : Except GoErr String :=
  if dir = "" then .error .other
  else if ¬validPath name then .error .invalid
  else .ok (filepathJoin dir name)

/-- The OS-level calls `dirFS` delegates to, keyed by the joined path.
`replaceErrorPaths` only rewrites the path inside a returned error and
never changes its class, so it is omitted. -/
structure OsFS where
  stat : String → Except GoErr FInfo
  openF : String → Except GoErr FileH
  openFileF : String → Nat → Nat → Except GoErr FileH
  mkdir : String → Nat → Except GoErr Unit
  rename : String → String → Except GoErr Unit
  remove : String → Except GoErr Unit

/-- `dirFS.Stat` (src/internal/fsx/dir.go lines 32-42). -/
def dirStat (dir : String) (os : OsFS) (name : String) : Except GoErr FInfo :=
  match dirJoin dir "stat" name with
  | .error e => .error e
  | .ok fullname => os.stat fullname

/-- `dirFS.Open` (src/internal/fsx/dir.go lines 44-54). -/
def dirOpen (dir : String) (os : OsFS) (name : String) : Except GoErr FileH :=
  match dirJoin dir "open" name with
  | .error e => .error e
  | .ok fullname => os.openF fullname

/-- `dirFS.OpenFile` (src/internal/fsx/dir.go lines 56-66); flags and
permissions are carried opaquely. -/
def dirOpenFile (dir : String) (os : OsFS) (name : String)
    (flags perm : Nat) : Except GoErr FileH :=
  match dirJoin dir "open" name with
  | .error e => .error e
  | .ok fullname => os.openFileF fullname flags perm

/-- `dirFS.MakeDir` (src/internal/fsx/dir.go lines 68-77). -/
def dirMakeDir (dir : String) (os : OsFS) (name : String)
    (perm : Nat) : Except GoErr Unit :=
  match dirJoin dir "mkdir" name with
  | .error e => .error e
  | .ok fullname => os.mkdir fullname perm

/-- `dirFS.Rename` (src/internal/fsx/dir.go lines 79-92): both names are
validated and joined before `os.Rename` runs. -/
def dirRename (dir : String) (os : OsFS) (oldName newName : String) :
    Except GoErr Unit :=
  match dirJoin dir "rename" oldName with
  | .error e => .error e
  | .ok oldFull =>
    match dirJoin dir "rename" newName with
    | .error e => .error e
    | .ok newFull => os.rename oldFull newFull

/-- `dirFS.Remove` (src/internal/fsx/dir.go lines 94-104). -/
def dirRemove (dir : String) (os : OsFS) (name : String) : Except GoErr Unit :=
  match dirJoin dir "remove" name with
  | .error e => .error e
  | .ok fullname => os.remove fullname

/-- The stack of path elements left by cleaning a path, in path order:
what the lexical resolution of the path denotes relative to the filesystem
root of reference.  Used to state that joined paths never escape the
rooted directory. -/
def cleanStack (s : String) : List Seg :=
  (cleanFold (isRooted s.data) [] (splitSlash s.data)).reverse

/-! ## Size and time formatting (src/main.go, src/unnamed/part_002)

`formatSize` starts with `n := float64(i)`.  That conversion rounds the
`int64` to the nearest `float64` (53-bit significand, ties to even);
`float64OfNat` below computes the exact value of the rounded result.
Every later step of the loop is exact arithmetic on that value: division
by 1024 only decrements the binary exponent, the `n >= 1024` comparison
is exact, and `%0.1f` (Go's `strconv` fixed-precision formatting, like
JavaScript's `toFixed(1)`) renders the correctly rounded decimal of the
exact binary value, ties to even, so the whole function is determined by
the rounded integer `float64OfNat i`. -/

/-- The iteration count of `formatSize`'s division loop: how many times
`n /= 1024` runs before `n < 1024`.  Structural recursion on a fuel bound
by the input itself (the loop runs at most log₁₀₂₄ i times). -/
def iecExpAux : Nat → Nat → Nat
  | 0, _ => 0
  | fuel + 1, i => if i < 1024 then 0 else 1 + iecExpAux fuel (i / 1024)

/-- Number of divisions by 1024 performed by `formatSize` on the float
value `i`. -/
def iecExp (i : Nat) : Nat := iecExpAux i i

/-- Round the rational `num / den` to the nearest integer, ties to even —
both the IEEE-754 significand rounding of the `int64`→`float64`
conversion (with `den` the power-of-two spacing) and the rounding Go's
`strconv` fixed-precision formatting and JavaScript's `toFixed` apply to
the exact binary value. -/
def roundHalfEven (num den : Nat) : Nat :=
  if 2 * (num % den) < den then num / den
  else if den < 2 * (num % den) then num / den + 1
  else if (num / den) % 2 = 0 then num / den else num / den + 1

/-- The spacing of `float64` values at magnitude `n`: the smallest power
of two `s` with `n / s < 2^53`.  Structural recursion on a fuel bound by
the input itself (the value halves each step). -/
def f64Scale : Nat → Nat → Nat
  | 0, _ => 1
  | fuel + 1, n => if n < 2 ^ 53 then 1 else 2 * f64Scale fuel (n / 2)

/-- The exact value of `float64(n)` for a natural `n` in the `int64`
range: `n` itself below 2^53, and otherwise `n` rounded to the nearest
multiple of the spacing `f64Scale n n`, ties to the even significand
(IEEE-754 round-to-nearest-even). -/
def float64OfNat (n : Nat) : Nat :=
  roundHalfEven n (f64Scale n n) * f64Scale n n

/-- The exact value of `n := float64(i)` for an `int64` count `i`. -/
def float64OfInt (i : Int) : Int :=
  if i < 0 then -(float64OfNat (-i).toNat : Int)
  else (float64OfNat i.toNat : Int)

/-- The IEC unit letter after `k` divisions: `units := "=KMGTPEZY"`
sliced `k` times. -/
def iecUnit (k : Nat) : Char :=
  (['=', 'K', 'M', 'G', 'T', 'P', 'E', 'Z', 'Y'].getD k '?')

/-- `formatSize` (src/main.go lines 246-258, identical in the second
variant and in the JavaScript `formatSize` of src/unnamed/part_002):
`n := float64(i)` (the rounded value, `float64OfNat`, negated for
negative counts), then divide by 1024 until below 1024; values that
never looped print as an integer with `B` (the float is integral
throughout the `int64` range, so `int(n)` is its exact value), others
with one decimal (ties to even) and the unit prefix. -/
def formatSize (i : Int) : String :=
  if float64OfInt i < 1024 then toString (float64OfInt i) ++ "B"
  else
    toString (roundHalfEven (10 * (float64OfInt i).toNat)
      (1024 ^ iecExp (float64OfInt i).toNat) / 10) ++ "." ++
    toString (roundHalfEven (10 * (float64OfInt i).toNat)
      (1024 ^ iecExp (float64OfInt i).toNat) % 10) ++
    String.singleton (iecUnit (iecExp (float64OfInt i).toNat)) ++ "iB"

/-- A calendar instant: its absolute time in Unix seconds together with
the local clock and calendar fields of that instant (the fields
`time.Time.Format` and JavaScript's `Date` accessors read). -/
structure TimeM where
  unix : Int
  hour : Nat
  minute : Nat
  month : Nat
  day : Nat
  year : Nat
  deriving DecidableEq, Repr

/-- Minutes zero-padded to two digits, as Go's `04` field and JavaScript's
`padStart(2, '0')`. -/
def pad2 (n : Nat) : String :=
  if n < 10 then "0" ++ toString n else toString n

/-- The three-letter month names shared by Go's `Jan` field and the
`month` array of src/unnamed/part_002. -/
def monthName (m : Nat) : String :=
  (["Jan", "Feb", "Mar", "Apr", "May", "Jun",
    "Jul", "Aug", "Sep", "Oct", "Nov", "Dec"].getD (m - 1) "")

/-- Go's `3:04 PM` clock rendering: 12-hour number (12 at hours 0 and 12)
with no leading zero, correct AM before noon and PM from noon on. -/
def goClock (h m : Nat) : String :=
  let h12 := h % 12
  toString (if h12 = 0 then 12 else h12) ++ ":" ++ pad2 m ++ " " ++
    (if h < 12 then "AM" else "PM")

/-- Go's `Jan 2, 2006` date rendering. -/
def goDate (t : TimeM) : String :=
  monthName t.month ++ " " ++ toString t.day ++ ", " ++ toString t.year

/-- `formatTime` (src/main.go lines 572-578): clock time within ±12 hours
of now, date otherwise. -/
def formatTime (ts now : TimeM) : String :=
  let d := ts.unix - now.unix
  if -43200 < d ∧ d < 43200 then goClock ts.hour ts.minute else goDate ts

/-- The clock rendering of JavaScript `formatDate`
(src/unnamed/part_002 lines 18-22): label is PM only when
`getHours() > 12`, and the displayed hour is `getHours() - offset`. -/
def jsClock (h m : Nat) : String :=
  let label := if 12 < h then "PM" else "AM"
  let offset := if 12 < h then 12 else 0
  toString (h - offset) ++ ":" ++ pad2 m ++ " " ++ label

/-- The date rendering of JavaScript `formatDate`
(src/unnamed/part_002 lines 24-25). -/
def jsDate (t : TimeM) : String :=
  monthName t.month ++ " " ++ toString t.day ++ ", " ++ toString t.year

/-- JavaScript `formatDate` (src/unnamed/part_002 lines 14-27):
`delta = now - ts` in seconds, clock time when `-12h < delta < 12h`, date
otherwise. -/
def formatDate (ts now : TimeM) : String :=
  let delta := now.unix - ts.unix
  if -43200 < delta ∧ delta < 43200 then jsClock ts.hour ts.minute
  else jsDate ts

/-- The canonical shape of the element stack maintained by `cleanFold`
(most recent first): some fully cleaned elements on top of a run of `..`
elements, the run being empty for rooted paths. -/
def canonAcc (rooted : Bool) (acc : List Seg) : Prop :=
  ∃ good k, acc = good ++ List.replicate k ['.', '.'] ∧
    (∀ s ∈ good, goodSeg s = true ∧ '/' ∉ s) ∧ (rooted = true → k = 0)

/-- The characters of the rooted all-`..` path with `n` occurrences of
`..`: `"/.."`, `"/../.."`, …; `[]` for `n = 0`. -/
def dotdotChars : Nat → List Char
  | 0 => []
  | n + 1 => '/' :: '.' :: '.' :: dotdotChars n

/-- The rooted all-`..` path: `"/"` when `n = 0`, else `"/../../.."` with
`n` elements. -/
def rootedDotDots (n : Nat) : String :=
  if n = 0 then "/" else ⟨dotdotChars n⟩

/-! ## Concrete fixtures used to instantiate the theorems on real inputs -/

/-- A regular 10-byte file `a.txt` modified at Unix second 7. -/
def fixInfoFile : FInfo :=
  { name := "a.txt", size := 10, modTime := 7, isDir := false,
    isRegular := true }

/-- The directory `docs`. -/
def fixInfoDir : FInfo :=
  { name := "docs", size := 0, modTime := 5, isDir := true,
    isRegular := false }

/-- A plain (non-symlink) directory entry for `a.txt`. -/
def fixEntry : DEntry :=
  { name := "a.txt", isSymlink := false, info := some fixInfoFile }

/-- A non-symlink entry whose `Info()` lookup yields no `FileInfo`. -/
def fixEntryBad : DEntry :=
  { name := "ghost", isSymlink := false, info := none }

/-- An open handle on the directory `docs` enumerating `a.txt`. -/
def fixDirHandle : FileH :=
  { stat := .ok fixInfoDir, readDir := some (.ok [fixEntry]),
    seekable := true, readAll := .ok () }

/-- An open handle on the directory `docs` whose `ReadDir` fails. -/
def fixBadDirHandle : FileH :=
  { stat := .ok fixInfoDir, readDir := some (.error .other),
    seekable := true, readAll := .ok () }

/-- An open handle on the regular file `a.txt` (no `ReadDir`
capability). -/
def fixFileHandle : FileH :=
  { stat := .ok fixInfoFile, readDir := none, seekable := true,
    readAll := .ok () }

/-- A root filesystem containing the directory `docs` and the file
`docs/a.txt`. -/
def fixFS : GoFS :=
  { openF := fun k =>
      if k = "docs" then .ok fixDirHandle
      else if k = "docs/a.txt" then .ok fixFileHandle
      else .error .notExist
    statF := fun _ => .error .notExist }

/-- An empty root filesystem: every lookup fails with not-exist. -/
def fixEmptyFS : GoFS :=
  { openF := fun _ => .error .notExist, statF := fun _ => .error .notExist }

/-- A server with no patterns configured. -/
def fixServer : Server :=
  { hideRx := none, denyRx := none, indexRx := none, sendfile := true }

/-- A server whose deny pattern matches every path. -/
def fixServerDenyAll : Server :=
  { hideRx := none, denyRx := some (fun _ => true), indexRx := none,
    sendfile := true }

/-- A server whose index pattern matches exactly the entry URL
`/docs//a.txt` produced for `a.txt` under the request path `/docs/`. -/
def fixServerIndex : Server :=
  { hideRx := none, denyRx := none,
    indexRx := some (fun s => s = "/docs//a.txt"), sendfile := true }

/-- An OS layer on which every operation succeeds. -/
def fixOS : OsFS :=
  { stat := fun _ => .ok fixInfoFile
    openF := fun _ => .ok fixFileHandle
    openFileF := fun _ _ _ => .ok fixFileHandle
    mkdir := fun _ _ => .ok ()
    rename := fun _ _ => .ok ()
    remove := fun _ => .ok () }

/-- Noon (12:30 local clock), 43 000 seconds after the reference `now`
below — within the ±12-hour window. -/
def fixNoon : TimeM :=
  { unix := 43000, hour := 12, minute := 30, month := 6, day := 15,
    year := 2024 }

/-- Shortly after midnight (0:05 local clock), also within the window. -/
def fixMidnight : TimeM :=
  { unix := 300, hour := 0, minute := 5, month := 6, day := 15,
    year := 2024 }

/-- The reference instant the formatters compare against. -/
def fixNow : TimeM :=
  { unix := 0, hour := 0, minute := 0, month := 6, day := 15, year := 2024 }

/-! ## Lemmas about path splitting and joining -/

theorem splitSlash_ne_nil (l : List Char) : splitSlash l ≠ [] := by
  cases l with
  | nil => simp [splitSlash]
  | cons c cs => simp only [splitSlash]; split <;> simp

theorem splitSlash_cons_eq (c : Char) (cs : List Char) :
    splitSlash (c :: cs) =
      if c = '/' then [] :: splitSlash cs
      else (c :: (splitSlash cs).headI) :: (splitSlash cs).tail := rfl

theorem splitSlash_no_slash (l : List Char) : ∀ s ∈ splitSlash l, '/' ∉ s := by
  induction l with
  | nil => simp [splitSlash]
  | cons c cs ih =>
    intro s hs
    rcases hcs : splitSlash cs with _ | ⟨t, ts⟩
    · exact absurd hcs (splitSlash_ne_nil cs)
    rw [splitSlash_cons_eq, hcs] at hs
    by_cases hc : c = '/'
    · simp only [hc, if_pos rfl] at hs
      rcases List.mem_cons.mp hs with h | h
      · simp [h]
      · exact ih s (hcs ▸ h)
    · simp only [if_neg hc] at hs
      rcases List.mem_cons.mp hs with h | h
      · subst h
        intro hmem
        rcases List.mem_cons.mp hmem with h1 | h1
        · exact hc h1.symm
        · exact ih t (hcs ▸ List.mem_cons_self t ts) (by simpa using h1)
      · exact ih s (hcs ▸ List.mem_cons_of_mem t h)

theorem splitSlash_append_slash (a b : List Char) :
    splitSlash (a ++ '/' :: b) = splitSlash a ++ splitSlash b := by
  induction a with
  | nil => simp [splitSlash]
  | cons c cs ih =>
    rcases hcs : splitSlash cs with _ | ⟨t, ts⟩
    · exact absurd hcs (splitSlash_ne_nil cs)
    by_cases hc : c = '/'
    · simp [splitSlash_cons_eq, hc, ih]
    · simp only [List.cons_append, splitSlash_cons_eq, if_neg hc, ih, hcs,
        List.cons_append, List.headI_cons, List.tail_cons]

theorem splitSlash_of_no_slash (s : List Char) (h : '/' ∉ s) :
    splitSlash s = [s] := by
  induction s with
  | nil => simp [splitSlash]
  | cons c cs ih =>
    have hc : c ≠ '/' := fun hh => h (hh ▸ List.mem_cons_self c cs)
    have hcs : '/' ∉ cs := fun hh => h (List.mem_cons_of_mem c hh)
    rw [splitSlash_cons_eq, if_neg hc, ih hcs]
    simp

theorem splitSlash_joinSlash (ss : List Seg) (h0 : ss ≠ [])
    (h1 : ∀ s ∈ ss, '/' ∉ s) : splitSlash (joinSlash ss) = ss := by
  induction ss with
  | nil => exact absurd rfl h0
  | cons s ss ih =>
    cases ss with
    | nil =>
      simpa [joinSlash] using splitSlash_of_no_slash s (h1 s (by simp))
    | cons s2 ss2 =>
      have hj : joinSlash (s :: s2 :: ss2) = s ++ '/' :: joinSlash (s2 :: ss2) := rfl
      rw [hj, splitSlash_append_slash, splitSlash_of_no_slash s (h1 s (by simp)),
        ih (by simp) (fun t ht => h1 t (List.mem_cons_of_mem s ht))]
      simp

theorem splitSlash_append_trailing (l : List Char) :
    splitSlash (l ++ ['/']) = splitSlash l ++ [[]] := by
  simpa [splitSlash] using splitSlash_append_slash l []

/-! ## Lemmas about the `path.Clean` element stack -/

theorem goodSeg_iff (s : Seg) :
    goodSeg s = true ↔ s ≠ [] ∧ s ≠ ['.'] ∧ s ≠ ['.', '.'] := by
  simp [goodSeg, not_or]

theorem cleanFold_cons (r : Bool) (acc : List Seg) (s : Seg) (rest : List Seg) :
    cleanFold r acc (s :: rest) =
      if s = [] ∨ s = ['.'] then cleanFold r acc rest
      else if s = ['.', '.'] then
        match acc with
        | [] => if r then cleanFold r [] rest else cleanFold r [s] rest
        | t :: acc' =>
          if t = ['.', '.'] then cleanFold r (s :: t :: acc') rest
          else cleanFold r acc' rest
      else cleanFold r (s :: acc) rest := rfl

theorem cleanFold_cons_skip (r : Bool) (acc : List Seg) (s : Seg)
    (rest : List Seg) (h : s = [] ∨ s = ['.']) :
    cleanFold r acc (s :: rest) = cleanFold r acc rest := by
  rw [cleanFold_cons, if_pos h]

theorem cleanFold_cons_dd_nil (r : Bool) (rest : List Seg) :
    cleanFold r [] (['.', '.'] :: rest) =
      if r = true then cleanFold r [] rest
      else cleanFold r [['.', '.']] rest := by
  rw [cleanFold_cons, if_neg (by decide), if_pos rfl]

theorem cleanFold_cons_dd_cons (r : Bool) (t : Seg) (acc' : List Seg)
    (rest : List Seg) :
    cleanFold r (t :: acc') (['.', '.'] :: rest) =
      if t = ['.', '.'] then cleanFold r (['.', '.'] :: t :: acc') rest
      else cleanFold r acc' rest := by
  rw [cleanFold_cons, if_neg (by decide), if_pos rfl]

theorem cleanFold_cons_push (r : Bool) (acc : List Seg) (s : Seg)
    (rest : List Seg) (h1 : ¬(s = [] ∨ s = ['.'])) (h2 : s ≠ ['.', '.']) :
    cleanFold r acc (s :: rest) = cleanFold r (s :: acc) rest := by
  rw [cleanFold_cons, if_neg h1, if_neg h2]

theorem cleanFold_append (r : Bool) (xs ys : List Seg) :
    ∀ acc, cleanFold r acc (xs ++ ys) = cleanFold r (cleanFold r acc xs) ys := by
  induction xs with
  | nil => intro acc; rfl
  | cons s rest ih =>
    intro acc
    rw [List.cons_append]
    by_cases h1 : s = [] ∨ s = ['.']
    · rw [cleanFold_cons_skip r acc s _ h1, cleanFold_cons_skip r acc s _ h1]
      exact ih acc
    · by_cases h2 : s = ['.', '.']
      · subst h2
        cases acc with
        | nil =>
          rw [cleanFold_cons_dd_nil, cleanFold_cons_dd_nil]
          cases r with
          | true => rw [if_pos rfl, if_pos rfl]; exact ih []
          | false =>
            rw [if_neg (by simp), if_neg (by simp)]
            exact ih [['.', '.']]
        | cons t acc' =>
          rw [cleanFold_cons_dd_cons, cleanFold_cons_dd_cons]
          by_cases h3 : t = ['.', '.']
          · rw [if_pos h3, if_pos h3]; exact ih (['.', '.'] :: t :: acc')
          · rw [if_neg h3, if_neg h3]; exact ih acc'
      · rw [cleanFold_cons_push r acc s _ h1 h2,
          cleanFold_cons_push r _ s _ h1 h2]
        exact ih (s :: acc)

theorem cleanFold_plain (r : Bool) (ys : List Seg)
    (h : ∀ s ∈ ys, s = [] ∨ s = ['.'] ∨ goodSeg s = true) :
    ∀ acc, cleanFold r acc ys = (ys.filter goodSeg).reverse ++ acc := by
  induction ys with
  | nil => intro acc; simp [cleanFold]
  | cons s rest ih =>
    intro acc
    have hrest : ∀ t ∈ rest, t = [] ∨ t = ['.'] ∨ goodSeg t = true :=
      fun t ht => h t (List.mem_cons_of_mem s ht)
    rcases h s (List.mem_cons_self s rest) with h1 | h1 | h1
    · rw [cleanFold_cons, if_pos (Or.inl h1), ih hrest]
      have : goodSeg s = false := by subst h1; decide
      simp [List.filter_cons, this]
    · rw [cleanFold_cons, if_pos (Or.inr h1), ih hrest]
      have : goodSeg s = false := by subst h1; decide
      simp [List.filter_cons, this]
    · have hs := (goodSeg_iff s).mp h1
      rw [cleanFold_cons, if_neg (by tauto), if_neg hs.2.2, ih hrest]
      simp [List.filter_cons, h1]

theorem cleanFold_goodOnly (r : Bool) (ys : List Seg)
    (h : ∀ s ∈ ys, goodSeg s = true) :
    ∀ acc, cleanFold r acc ys = ys.reverse ++ acc := by
  intro acc
  rw [cleanFold_plain r ys (fun s hs => Or.inr (Or.inr (h s hs))) acc,
    List.filter_eq_self.mpr h]

theorem canonAcc_nil (r : Bool) : canonAcc r [] :=
  ⟨[], 0, by simp, by simp, fun _ => rfl⟩

theorem cleanFold_canon (r : Bool) (segs : List Seg)
    (hsegs : ∀ s ∈ segs, '/' ∉ s) :
    ∀ acc, canonAcc r acc → canonAcc r (cleanFold r acc segs) := by
  induction segs with
  | nil => intro acc hacc; exact hacc
  | cons s rest ih =>
    intro acc hacc
    have hrest : ∀ t ∈ rest, '/' ∉ t :=
      fun t ht => hsegs t (List.mem_cons_of_mem s ht)
    obtain ⟨good, k, hshape, hgood, hk⟩ := hacc
    by_cases h1 : s = [] ∨ s = ['.']
    · rw [cleanFold_cons_skip r acc s _ h1]
      exact ih hrest acc ⟨good, k, hshape, hgood, hk⟩
    · by_cases h2 : s = ['.', '.']
      · subst h2
        cases good with
        | nil =>
          simp only [List.nil_append] at hshape
          cases k with
          | zero =>
            simp only [List.replicate] at hshape
            subst hshape
            rw [cleanFold_cons_dd_nil]
            cases r with
            | true => rw [if_pos rfl]; exact ih hrest [] (canonAcc_nil true)
            | false =>
              rw [if_neg (by simp)]
              exact ih hrest [['.', '.']]
                ⟨[], 1, by simp, by simp, by intro h; cases h⟩
          | succ k' =>
            have hk0 : r = false := by
              cases hrv : r
              · rfl
              · exact absurd (hk hrv) (Nat.succ_ne_zero k')
            rw [List.replicate_succ] at hshape
            subst hshape
            rw [cleanFold_cons_dd_cons, if_pos rfl]
            refine ih hrest _ ⟨[], k' + 2, ?_, by simp, ?_⟩
            · simp [List.replicate_succ]
            · intro hcontra; rw [hcontra] at hk0; cases hk0
        | cons g good' =>
          simp only [List.cons_append] at hshape
          subst hshape
          have hg := hgood g (List.mem_cons_self g good')
          have hgne : g ≠ ['.', '.'] := ((goodSeg_iff g).mp hg.1).2.2
          rw [cleanFold_cons_dd_cons, if_neg hgne]
          exact ih hrest _
            ⟨good', k, rfl, fun t ht => hgood t (List.mem_cons_of_mem g ht), hk⟩
      · have hs3 : goodSeg s = true := (goodSeg_iff s).mpr (by tauto)
        rw [cleanFold_cons_push r acc s _ h1 h2]
        refine ih hrest (s :: acc) ⟨s :: good, k, by simp [hshape], ?_, hk⟩
        intro t ht
        rcases List.mem_cons.mp ht with h | h
        · exact h ▸ ⟨hs3, hsegs s (List.mem_cons_self s rest)⟩
        · exact hgood t h

theorem canon_of_splitSlash (r : Bool) (p : List Char) :
    canonAcc r (cleanFold r [] (splitSlash p)) :=
  cleanFold_canon r (splitSlash p) (splitSlash_no_slash p) [] (canonAcc_nil r)

theorem stack_good_of_rooted (p : List Char) :
    ∀ s ∈ (cleanFold true [] (splitSlash p)).reverse,
      goodSeg s = true ∧ '/' ∉ s := by
  obtain ⟨good, k, hshape, hgood, hk⟩ := canon_of_splitSlash true p
  rw [hk rfl] at hshape
  simp only [List.replicate_zero, List.append_nil] at hshape
  intro s hs
  rw [hshape] at hs
  exact hgood s (List.mem_reverse.mp hs)

theorem joinSlash_ne_nil (s : Seg) (ss : List Seg) (hs : s ≠ []) :
    joinSlash (s :: ss) ≠ [] := by
  cases ss with
  | nil => simpa [joinSlash] using hs
  | cons s2 ss2 =>
    have : joinSlash (s :: s2 :: ss2) = s ++ '/' :: joinSlash (s2 :: ss2) := rfl
    rw [this]
    simp

theorem endsWithSlash_eq_false_iff (l : List Char) :
    endsWithSlash l = false ↔ l.getLast? ≠ some '/' := by
  simp [endsWithSlash]

theorem joinSlash_not_endsWithSlash (ss : List Seg) (h0 : ss ≠ [])
    (h1 : ∀ s ∈ ss, s ≠ [] ∧ '/' ∉ s) :
    endsWithSlash (joinSlash ss) = false := by
  induction ss with
  | nil => exact absurd rfl h0
  | cons s ss ih =>
    cases ss with
    | nil =>
      have hs := h1 s (List.mem_cons_self s [])
      rw [endsWithSlash_eq_false_iff]
      intro hgl
      obtain ⟨hne, heq⟩ := List.mem_getLast?_eq_getLast
        (l := joinSlash [s]) (x := '/') (by simp [Option.mem_def, hgl])
      have hmem := List.getLast_mem hne
      rw [← heq] at hmem
      exact hs.2 (by simpa [joinSlash] using hmem)
    | cons s2 ss2 =>
      have hj : joinSlash (s :: s2 :: ss2) = s ++ '/' :: joinSlash (s2 :: ss2) := rfl
      have hjs2 : joinSlash (s2 :: ss2) ≠ [] :=
        joinSlash_ne_nil s2 ss2 (h1 s2 (by simp)).1
      have ihv := ih (by simp) (fun t ht => h1 t (List.mem_cons_of_mem s ht))
      rw [endsWithSlash_eq_false_iff] at ihv ⊢
      rw [hj, List.getLast?_append_of_ne_nil s (by simp)]
      have hrw : ('/' :: joinSlash (s2 :: ss2)).getLast? =
          (joinSlash (s2 :: ss2)).getLast? := by
        have := @List.getLast?_append_of_ne_nil Char ['/'] (joinSlash (s2 :: ss2)) hjs2
        simpa using this
      rw [hrw]
      exact ihv

theorem isRooted_iff (l : List Char) :
    isRooted l = true ↔ ∃ rest, l = '/' :: rest := by
  cases l with
  | nil => simp [isRooted]
  | cons c cs => simp [isRooted, List.cons_eq_cons]

theorem isRooted_append (l m : List Char) (h : l ≠ []) :
    isRooted (l ++ m) = isRooted l := by
  cases l with
  | nil => exact absurd rfl h
  | cons c cs => simp [isRooted]

theorem cleanChars_rooted_eq (p : List Char) (hp : isRooted p = true) :
    cleanChars p =
      '/' :: joinSlash ((cleanFold true [] (splitSlash p)).reverse) := by
  have hne : p ≠ [] := by
    intro h; rw [h] at hp; simp [isRooted] at hp
  simp [cleanChars, hne, hp]

theorem cleanChars_notRooted_eq (p : List Char) (hne : p ≠ [])
    (hp : isRooted p = false) :
    cleanChars p =
      (if (cleanFold false [] (splitSlash p)).reverse = [] then ['.']
       else joinSlash ((cleanFold false [] (splitSlash p)).reverse)) := by
  simp [cleanChars, hne, hp]

/-- Round trip: cleaning the rooted reassembly of a fully cleaned stack
changes nothing and recovers the stack. -/
theorem cleanChars_assembled_rooted (out : List Seg)
    (hout : ∀ s ∈ out, goodSeg s = true ∧ '/' ∉ s) :
    cleanChars ('/' :: joinSlash out) = '/' :: joinSlash out ∧
    (cleanFold true [] (splitSlash ('/' :: joinSlash out))).reverse = out := by
  have hroot : isRooted ('/' :: joinSlash out) = true := by simp [isRooted]
  cases out with
  | nil =>
    constructor
    · decide
    · decide
  | cons o os =>
    have hsplit : splitSlash ('/' :: joinSlash (o :: os)) =
        [] :: (o :: os) := by
      rw [splitSlash_cons_eq, if_pos rfl,
        splitSlash_joinSlash (o :: os) (by simp)
          (fun s hs => (hout s hs).2)]
    have hfold : cleanFold true [] (splitSlash ('/' :: joinSlash (o :: os))) =
        (o :: os).reverse := by
      rw [hsplit, cleanFold_cons_skip true [] [] _ (Or.inl rfl),
        cleanFold_goodOnly true (o :: os) (fun s hs => (hout s hs).1) []]
      simp
    refine ⟨?_, by rw [hfold]; simp⟩
    rw [cleanChars_rooted_eq _ hroot, hfold]
    simp

/-- Round trip with a trailing slash appended: cleaning strips the slash
and recovers the same stack. -/
theorem cleanChars_assembled_rooted_slash (out : List Seg)
    (hout : ∀ s ∈ out, goodSeg s = true ∧ '/' ∉ s) :
    cleanChars (('/' :: joinSlash out) ++ ['/']) = '/' :: joinSlash out ∧
    (cleanFold true []
      (splitSlash (('/' :: joinSlash out) ++ ['/']))).reverse = out := by
  have hroot : isRooted (('/' :: joinSlash out) ++ ['/']) = true := by
    simp [isRooted]
  cases out with
  | nil => exact ⟨by decide, by decide⟩
  | cons o os =>
    have hsplit : splitSlash (('/' :: joinSlash (o :: os)) ++ ['/']) =
        ([] :: (o :: os)) ++ [[]] := by
      rw [splitSlash_append_trailing, splitSlash_cons_eq, if_pos rfl,
        splitSlash_joinSlash (o :: os) (by simp)
          (fun s hs => (hout s hs).2)]
    have hfold : cleanFold true []
        (splitSlash (('/' :: joinSlash (o :: os)) ++ ['/'])) =
        (o :: os).reverse := by
      rw [hsplit, List.cons_append, cleanFold_cons_skip true [] [] _ (Or.inl rfl),
        cleanFold_append true (o :: os) [[]],
        cleanFold_goodOnly true (o :: os) (fun s hs => (hout s hs).1) [],
        cleanFold_cons_skip true _ [] _ (Or.inl rfl)]
      simp [cleanFold]
    refine ⟨?_, by rw [hfold]; simp⟩
    rw [cleanChars_rooted_eq _ hroot, hfold]
    simp

/-! ## Lemmas about the server's path normalization -/

theorem endsWithSlash_append_slash (l : List Char) :
    endsWithSlash (l ++ ['/']) = true := by
  have := @List.getLast?_append_of_ne_nil Char l ['/'] (by simp)
  simp [endsWithSlash, this]

theorem endsWithSlash_cons_slash_join (out : List Seg) (hne : out ≠ [])
    (hout : ∀ s ∈ out, goodSeg s = true ∧ '/' ∉ s) :
    endsWithSlash ('/' :: joinSlash out) = false := by
  cases out with
  | nil => exact absurd rfl hne
  | cons o os =>
    have h1 : ∀ s ∈ o :: os, s ≠ [] ∧ '/' ∉ s := fun s hs =>
      ⟨((goodSeg_iff s).mp (hout s hs).1).1, (hout s hs).2⟩
    have hjne : joinSlash (o :: os) ≠ [] :=
      joinSlash_ne_nil o os (h1 o (by simp)).1
    rw [endsWithSlash_eq_false_iff]
    have hrw : ('/' :: joinSlash (o :: os)).getLast? =
        (joinSlash (o :: os)).getLast? := by
      have := @List.getLast?_append_of_ne_nil Char ['/']
        (joinSlash (o :: os)) hjne
      simpa using this
    rw [hrw]
    exact (endsWithSlash_eq_false_iff _).mp
      (joinSlash_not_endsWithSlash _ (by simp) h1)

theorem trimLeadingSlash_cons_slash (l : List Char) :
    trimLeadingSlash ('/' :: l) = l := by
  simp [trimLeadingSlash]

/-- Full characterization of the normalization on rooted inputs: the
result is `"/"` when the clean stack is empty, and otherwise the rooted
reassembly of the stack with the original trailing slash re-appended. -/
theorem normChars_rooted (p : List Char) (hp : isRooted p = true) :
    normChars p =
      (if (cleanFold true [] (splitSlash p)).reverse = [] then ['/']
       else if endsWithSlash p = true then
         ('/' :: joinSlash ((cleanFold true [] (splitSlash p)).reverse)) ++ ['/']
       else '/' :: joinSlash ((cleanFold true [] (splitSlash p)).reverse)) := by
  have hout := stack_good_of_rooted p
  have hclean : cleanChars p =
      '/' :: joinSlash ((cleanFold true [] (splitSlash p)).reverse) :=
    cleanChars_rooted_eq p hp
  simp only [normChars, hclean, trimLeadingSlash_cons_slash]
  by_cases hne : (cleanFold true [] (splitSlash p)).reverse = []
  · rw [if_pos hne, hne]
    simp [joinSlash, endsWithSlash]
  · rw [if_neg hne]
    have hq : endsWithSlash
        ('/' :: joinSlash ((cleanFold true [] (splitSlash p)).reverse)) = false :=
      endsWithSlash_cons_slash_join _ hne hout
    by_cases hps : endsWithSlash p = true
    · rw [if_pos hps, if_pos (by simp [hq, hps])]
    · rw [if_neg hps, if_neg (by simp [hq, hps])]

theorem normChars_isRooted (p : List Char) : isRooted (normChars p) = true := by
  simp only [normChars]
  split
  · rw [List.cons_append]; simp [isRooted]
  · simp [isRooted]

theorem normChars_preserves_trailing (p : List Char)
    (h : endsWithSlash p = true) : endsWithSlash (normChars p) = true := by
  simp only [normChars]
  by_cases hq : endsWithSlash ('/' :: trimLeadingSlash (cleanChars p)) = true
  · rw [if_neg (by simp [hq])]
    exact hq
  · rw [if_pos ⟨hq, h⟩]
    exact endsWithSlash_append_slash _

theorem splitSlash_rooted_join (out : List Seg) (hne : out ≠ [])
    (hout : ∀ s ∈ out, '/' ∉ s) :
    splitSlash ('/' :: joinSlash out) = [] :: out := by
  rw [splitSlash_cons_eq, if_pos rfl, splitSlash_joinSlash out hne hout]

theorem normChars_no_dot_segs (p : List Char) (hp : isRooted p = true) :
    ∀ seg ∈ splitSlash (normChars p), seg ≠ ['.'] ∧ seg ≠ ['.', '.'] := by
  have hout := stack_good_of_rooted p
  rw [normChars_rooted p hp]
  by_cases hne : (cleanFold true [] (splitSlash p)).reverse = []
  · rw [if_pos hne]
    intro seg hseg
    have hs : splitSlash ['/'] = [[], []] := by decide
    rw [hs] at hseg
    rcases List.mem_cons.mp hseg with h | h
    · subst h; exact ⟨by decide, by decide⟩
    · rcases List.mem_cons.mp h with h2 | h2
      · subst h2; exact ⟨by decide, by decide⟩
      · cases h2
  · rw [if_neg hne]
    have hsj := splitSlash_rooted_join _ hne (fun s hs => (hout s hs).2)
    have hmem : ∀ seg, (seg = [] ∨ seg ∈ (cleanFold true [] (splitSlash p)).reverse) →
        seg ≠ ['.'] ∧ seg ≠ ['.', '.'] := by
      intro seg h
      rcases h with h | h
      · subst h; exact ⟨by decide, by decide⟩
      · have := (goodSeg_iff seg).mp (hout seg h).1
        exact ⟨this.2.1, this.2.2⟩
    by_cases hps : endsWithSlash p = true
    · rw [if_pos hps]
      intro seg hseg
      rw [splitSlash_append_trailing, hsj] at hseg
      rcases List.mem_append.mp hseg with h | h
      · rcases List.mem_cons.mp h with h2 | h2
        · exact hmem seg (Or.inl h2)
        · exact hmem seg (Or.inr h2)
      · exact hmem seg (Or.inl (by simpa using h))
    · rw [if_neg hps]
      intro seg hseg
      rw [hsj] at hseg
      rcases List.mem_cons.mp hseg with h2 | h2
      · exact hmem seg (Or.inl h2)
      · exact hmem seg (Or.inr h2)

theorem normChars_idem (p : List Char) (hp : isRooted p = true) :
    normChars (normChars p) = normChars p := by
  have hout := stack_good_of_rooted p
  rw [normChars_rooted p hp]
  by_cases hne : (cleanFold true [] (splitSlash p)).reverse = []
  · rw [if_pos hne]; decide
  · rw [if_neg hne]
    by_cases hps : endsWithSlash p = true
    · rw [if_pos hps]
      obtain ⟨_, hst⟩ := cleanChars_assembled_rooted_slash _ hout
      have hroot2 : isRooted
          (('/' :: joinSlash ((cleanFold true [] (splitSlash p)).reverse)) ++
            ['/']) = true := by
        simp [isRooted]
      rw [normChars_rooted _ hroot2, hst, if_neg hne,
        if_pos (endsWithSlash_append_slash _)]
    · rw [if_neg hps]
      obtain ⟨_, hst⟩ := cleanChars_assembled_rooted _ hout
      have hroot2 : isRooted
          ('/' :: joinSlash ((cleanFold true [] (splitSlash p)).reverse)) =
            true := by
        simp [isRooted]
      rw [normChars_rooted _ hroot2, hst, if_neg hne,
        if_neg (by simp [endsWithSlash_cons_slash_join _ hne hout])]

/-! ## Lemmas about the rooted all-`..` paths -/

theorem dotdotChars_succ_head (n : Nat) :
    ∃ rest, dotdotChars (n + 1) = '/' :: rest := ⟨_, rfl⟩

theorem splitSlash_dotdotChars (n : Nat) :
    splitSlash (dotdotChars (n + 1)) =
      [] :: List.replicate (n + 1) ['.', '.'] := by
  induction n with
  | zero => decide
  | succ m ih =>
    obtain ⟨rest, hrest⟩ := dotdotChars_succ_head m
    have hsplit_rest : splitSlash rest = List.replicate (m + 1) ['.', '.'] := by
      have hthis : splitSlash (dotdotChars (m + 1)) = [] :: splitSlash rest := by
        rw [hrest, splitSlash_cons_eq, if_pos rfl]
      rw [hthis] at ih
      injection ih
    have hshape : dotdotChars (m + 2) =
        '/' :: (['.', '.'] ++ '/' :: rest) := by
      show '/' :: '.' :: '.' :: dotdotChars (m + 1) = _
      rw [hrest]
      rfl
    rw [hshape, splitSlash_cons_eq, if_pos rfl, splitSlash_append_slash,
      hsplit_rest]
    have : splitSlash ['.', '.'] = [['.', '.']] := by decide
    rw [this]
    simp [List.replicate_succ]

theorem cleanFold_rooted_replicate_dd (m : Nat) :
    cleanFold true [] (List.replicate m ['.', '.']) = [] := by
  induction m with
  | zero => rfl
  | succ k ih =>
    rw [List.replicate_succ, cleanFold_cons_dd_nil, if_pos rfl, ih]

theorem endsWithSlash_dotdotChars (n : Nat) :
    endsWithSlash (dotdotChars (n + 1)) = false := by
  induction n with
  | zero => decide
  | succ m ih =>
    have hshape : dotdotChars (m + 2) =
        ['/', '.', '.'] ++ dotdotChars (m + 1) := rfl
    have hne : dotdotChars (m + 1) ≠ [] := by
      obtain ⟨rest, hrest⟩ := dotdotChars_succ_head m
      rw [hrest]; simp
    rw [endsWithSlash_eq_false_iff] at ih ⊢
    rw [hshape, List.getLast?_append_of_ne_nil _ hne]
    exact ih

theorem normChars_dotdotChars (n : Nat) :
    normChars (dotdotChars (n + 1)) = ['/'] := by
  have hroot : isRooted (dotdotChars (n + 1)) = true := by
    obtain ⟨rest, hrest⟩ := dotdotChars_succ_head n
    rw [hrest]; simp [isRooted]
  rw [normChars_rooted _ hroot, splitSlash_dotdotChars,
    cleanFold_cons_skip true [] [] _ (Or.inl rfl),
    cleanFold_rooted_replicate_dd]
  simp

/-! ## Lemmas about `dirFS.join` and lexical containment under the root -/

theorem data_ne_nil_of_ne_empty (s : String) (h : s ≠ "") : s.data ≠ [] := by
  intro hd
  exact h (String.ext (show s.data = ("" : String).data from hd))

theorem cleanChars_eq_assemble (p : List Char) (hne : p ≠ []) :
    cleanChars p =
      assembleChars (isRooted p)
        ((cleanFold (isRooted p) [] (splitSlash p)).reverse) := by
  cases hr : isRooted p
  · rw [cleanChars_notRooted_eq p hne hr]; simp [assembleChars]
  · rw [cleanChars_rooted_eq p hr]; simp [assembleChars]

theorem validPath_elim (name : String) (h : validPath name = true) :
    ∀ s ∈ splitSlash name.data, s = [] ∨ s = ['.'] ∨ goodSeg s = true := by
  simp only [validPath, Bool.decide_or, Bool.or_eq_true, decide_eq_true_eq] at h
  rcases h with h | h
  · intro s hs
    rw [h] at hs
    have : splitSlash ['.'] = [['.']] := by decide
    rw [this] at hs
    rcases List.mem_cons.mp hs with h2 | h2
    · exact Or.inr (Or.inl h2)
    · cases h2
  · intro s hs
    exact Or.inr (Or.inr (List.all_eq_true.mp h s hs))

/-- The central no-escape decomposition: joining a valid relative name
onto a nonempty root yields exactly the reassembly of the root's cleaned
element stack followed by the name's elements — `..` in the name can never
pop an element of the root because valid names contain none. -/
theorem filepathJoin_decomp (dir name : String) (hdir : dir ≠ "")
    (hname : validPath name = true) :
    (filepathJoin dir name).data =
      assembleChars (isRooted dir.data)
        (cleanStack dir ++ (splitSlash name.data).filter goodSeg) := by
  have hd : dir.data ≠ [] := data_ne_nil_of_ne_empty dir hdir
  have hX : (dir ++ "/" ++ name).data = dir.data ++ '/' :: name.data := by
    rw [String.data_append, String.data_append,
      show ("/" : String).data = ['/'] from by decide]
    simp
  show cleanChars (dir ++ "/" ++ name).data = _
  rw [hX]
  have hXne : dir.data ++ '/' :: name.data ≠ [] := by simp
  have hroot : isRooted (dir.data ++ '/' :: name.data) = isRooted dir.data :=
    isRooted_append _ _ hd
  rw [cleanChars_eq_assemble _ hXne, hroot, splitSlash_append_slash,
    cleanFold_append, cleanFold_plain _ _ (validPath_elim name hname)]
  rw [List.reverse_append, List.reverse_reverse]
  rfl

theorem validPath_absolute (name : String) (h : isRooted name.data = true) :
    validPath name = false := by
  obtain ⟨rest, hrest⟩ := (isRooted_iff name.data).mp h
  simp only [validPath, Bool.decide_or, Bool.or_eq_false_iff,
    decide_eq_false_iff_not]
  constructor
  · rw [hrest]; simp
  · intro hall
    have : goodSeg [] = true := by
      apply List.all_eq_true.mp hall
      rw [hrest, splitSlash_cons_eq, if_pos rfl]
      exact List.mem_cons_self [] _
    cases this

theorem validPath_dotdot_seg (name : String)
    (h : ['.', '.'] ∈ splitSlash name.data) : validPath name = false := by
  simp only [validPath, Bool.decide_or, Bool.or_eq_false_iff,
    decide_eq_false_iff_not]
  constructor
  · intro hd
    rw [hd] at h
    have : splitSlash ['.'] = [['.']] := by decide
    rw [this] at h
    rcases List.mem_cons.mp h with h2 | h2
    · cases h2
    · cases h2
  · intro hall
    have : goodSeg ['.', '.'] = true := List.all_eq_true.mp hall _ h
    cases this

/-! ## Lemmas about the directory enumeration loop -/

theorem dirLoop_nil (s : Server) (fsm : GoFS) (p q : String)
    (acc : List FileEntry) :
    dirLoop s fsm p q acc [] = .listing acc.reverse := rfl

theorem dirLoop_cons_none (s : Server) (fsm : GoFS) (p q : String)
    (acc : List FileEntry) (fe : DEntry) (rest : List DEntry)
    (h : resolveInfo fsm p fe = none) :
    dirLoop s fsm p q acc (fe :: rest) = dirLoop s fsm p q acc rest := by
  conv_lhs => rw [dirLoop]
  rw [h]

theorem dirLoop_cons_some (s : Server) (fsm : GoFS) (p q : String)
    (acc : List FileEntry) (fe : DEntry) (rest : List DEntry) (fi : FInfo)
    (h : resolveInfo fsm p fe = some fi) :
    dirLoop s fsm p q acc (fe :: rest) =
      (if regexpMatch s.hideRx (p ++ "/" ++ fi.name) = true ∨
          regexpMatch s.denyRx (p ++ "/" ++ fi.name) = true then
        dirLoop s fsm p q acc rest
      else if regexpMatch s.indexRx (p ++ "/" ++ fi.name) = true then
        match fsm.openF (entryKey p fi.name) with
        | .error e => httpError e
        | .ok f2 => serveFile s (p ++ "/" ++ fi.name) q f2 fi.modTime false
      else dirLoop s fsm p q (mkEntry fi :: acc) rest) := by
  conv_lhs => rw [dirLoop]
  rw [h]

theorem httpError_ne_listing (e : GoErr) (l : List FileEntry) :
    httpError e ≠ .listing l := by
  cases e <;> simp [httpError]

theorem serveFile_ne_listing (s : Server) (up q : String) (f : FileH)
    (mt : Int) (ar : Bool) (l : List FileEntry) :
    serveFile s up q f mt ar ≠ .listing l := by
  unfold serveFile relativeRedirect
  by_cases h1 : ar = true ∧ regexpMatch s.indexRx up = true
  · rw [if_pos h1]; simp
  · rw [if_neg h1]
    by_cases h2 : f.seekable = true
    · rw [if_pos h2]; simp
    · rw [if_neg h2]
      cases f.readAll with
      | error e => exact httpError_ne_listing e l
      | ok u => simp

theorem dirLoop_drops_unresolved (s : Server) (fsm : GoFS) (p q : String) :
    ∀ (fes : List DEntry) (acc : List FileEntry),
      dirLoop s fsm p q acc fes =
        dirLoop s fsm p q acc
          (fes.filter (fun fe => (resolveInfo fsm p fe).isSome)) := by
  intro fes
  induction fes with
  | nil => intro acc; rfl
  | cons fe rest ih =>
    intro acc
    cases hres : resolveInfo fsm p fe with
    | none =>
      rw [dirLoop_cons_none s fsm p q acc fe rest hres, List.filter_cons,
        hres]
      simp only [Option.isSome_none, Bool.false_eq_true, if_false]
      exact ih acc
    | some fi =>
      rw [dirLoop_cons_some s fsm p q acc fe rest fi hres, List.filter_cons,
        hres]
      simp only [Option.isSome_some, if_true]
      rw [dirLoop_cons_some s fsm p q acc fe _ fi hres]
      by_cases h1 : regexpMatch s.hideRx (p ++ "/" ++ fi.name) = true ∨
          regexpMatch s.denyRx (p ++ "/" ++ fi.name) = true
      · rw [if_pos h1, if_pos h1]; exact ih acc
      · rw [if_neg h1, if_neg h1]
        by_cases h2 : regexpMatch s.indexRx (p ++ "/" ++ fi.name) = true
        · rw [if_pos h2, if_pos h2]
        · rw [if_neg h2, if_neg h2]; exact ih (mkEntry fi :: acc)

theorem dirLoop_listing_members (s : Server) (fsm : GoFS) (p q : String) :
    ∀ (fes : List DEntry) (acc : List FileEntry) (l : List FileEntry),
      dirLoop s fsm p q acc fes = .listing l →
      ∀ e ∈ l, e ∈ acc ∨ ∃ fi,
        e = mkEntry fi ∧
        regexpMatch s.hideRx (p ++ "/" ++ fi.name) = false ∧
        regexpMatch s.denyRx (p ++ "/" ++ fi.name) = false := by
  intro fes
  induction fes with
  | nil =>
    intro acc l hl e he
    rw [dirLoop_nil] at hl
    injection hl with hl
    exact Or.inl (List.mem_reverse.mp (hl ▸ he))
  | cons fe rest ih =>
    intro acc l hl e he
    cases hres : resolveInfo fsm p fe with
    | none =>
      rw [dirLoop_cons_none s fsm p q acc fe rest hres] at hl
      exact ih acc l hl e he
    | some fi =>
      rw [dirLoop_cons_some s fsm p q acc fe rest fi hres] at hl
      by_cases h1 : regexpMatch s.hideRx (p ++ "/" ++ fi.name) = true ∨
          regexpMatch s.denyRx (p ++ "/" ++ fi.name) = true
      · rw [if_pos h1] at hl
        exact ih acc l hl e he
      · rw [if_neg h1] at hl
        by_cases h2 : regexpMatch s.indexRx (p ++ "/" ++ fi.name) = true
        · rw [if_pos h2] at hl
          exfalso
          cases hopen : fsm.openF (entryKey p fi.name) with
          | error e2 =>
            rw [hopen] at hl
            exact httpError_ne_listing e2 l hl
          | ok f2 =>
            rw [hopen] at hl
            exact serveFile_ne_listing s _ q f2 fi.modTime false l hl
        · rw [if_neg h2] at hl
          rcases ih (mkEntry fi :: acc) l hl e he with hmem | hex
          · rcases List.mem_cons.mp hmem with h3 | h3
            · refine Or.inr ⟨fi, h3, ?_, ?_⟩
              · cases hh : regexpMatch s.hideRx (p ++ "/" ++ fi.name)
                · rfl
                · exact absurd (Or.inl hh) h1
              · cases hh : regexpMatch s.denyRx (p ++ "/" ++ fi.name)
                · rfl
                · exact absurd (Or.inr hh) h1
            · exact Or.inl h3
          · exact Or.inr hex

theorem dirLoop_no_patterns (fsm : GoFS) (p q : String) (sf : Bool) :
    ∀ (fes : List DEntry) (acc : List FileEntry),
      dirLoop ⟨none, none, none, sf⟩ fsm p q acc fes =
        .listing (acc.reverse ++
          ((fes.filterMap (resolveInfo fsm p)).map mkEntry)) := by
  intro fes
  induction fes with
  | nil => intro acc; simp [dirLoop_nil]
  | cons fe rest ih =>
    intro acc
    cases hres : resolveInfo fsm p fe with
    | none =>
      rw [dirLoop_cons_none _ fsm p q acc fe rest hres, List.filterMap_cons,
        hres]
      exact ih acc
    | some fi =>
      rw [dirLoop_cons_some _ fsm p q acc fe rest fi hres, List.filterMap_cons,
        hres]
      rw [if_neg (by simp [regexpMatch]), if_neg (by simp [regexpMatch]),
        ih (mkEntry fi :: acc)]
      simp

theorem dirLoop_index_abort (s : Server) (fsm : GoFS) (p q : String)
    (fe : DEntry) (fi : FInfo) (f2 : FileH)
    (hres : resolveInfo fsm p fe = some fi)
    (hhide : regexpMatch s.hideRx (p ++ "/" ++ fi.name) = false)
    (hdeny : regexpMatch s.denyRx (p ++ "/" ++ fi.name) = false)
    (hidx : regexpMatch s.indexRx (p ++ "/" ++ fi.name) = true)
    (hopen : fsm.openF (entryKey p fi.name) = .ok f2) :
    ∀ (pre : List DEntry),
      (∀ e ∈ pre, resolveInfo fsm p e = none ∨
        ∃ gi, resolveInfo fsm p e = some gi ∧
          (regexpMatch s.hideRx (p ++ "/" ++ gi.name) = true ∨
           regexpMatch s.denyRx (p ++ "/" ++ gi.name) = true ∨
           regexpMatch s.indexRx (p ++ "/" ++ gi.name) = false)) →
      ∀ (acc : List FileEntry) (post : List DEntry),
        dirLoop s fsm p q acc (pre ++ fe :: post) =
          serveFile s (p ++ "/" ++ fi.name) q f2 fi.modTime false := by
  intro pre
  induction pre with
  | nil =>
    intro _ acc post
    rw [List.nil_append, dirLoop_cons_some s fsm p q acc fe post fi hres,
      if_neg (by simp [hhide, hdeny]), if_pos hidx, hopen]
  | cons e pre' ih =>
    intro hpre acc post
    have hpre' : ∀ e2 ∈ pre', resolveInfo fsm p e2 = none ∨
        ∃ gi, resolveInfo fsm p e2 = some gi ∧
          (regexpMatch s.hideRx (p ++ "/" ++ gi.name) = true ∨
           regexpMatch s.denyRx (p ++ "/" ++ gi.name) = true ∨
           regexpMatch s.indexRx (p ++ "/" ++ gi.name) = false) :=
      fun e2 he2 => hpre e2 (List.mem_cons_of_mem e he2)
    rw [List.cons_append]
    rcases hpre e (List.mem_cons_self e pre') with hnone | ⟨gi, hgi, hcase⟩
    · rw [dirLoop_cons_none s fsm p q acc e _ hnone]
      exact ih hpre' acc post
    · rw [dirLoop_cons_some s fsm p q acc e _ gi hgi]
      by_cases h1 : regexpMatch s.hideRx (p ++ "/" ++ gi.name) = true ∨
          regexpMatch s.denyRx (p ++ "/" ++ gi.name) = true
      · rw [if_pos h1]
        exact ih hpre' acc post
      · rw [if_neg h1]
        have hidx2 : regexpMatch s.indexRx (p ++ "/" ++ gi.name) = false := by
          rcases hcase with h | h | h
          · exact absurd (Or.inl h) h1
          · exact absurd (Or.inr h) h1
          · exact h
        rw [if_neg (by simp [hidx2])]
        exact ih hpre' (mkEntry gi :: acc) post

/-! ## Equations for the dispatcher -/

theorem serveDirectory_no_readdir (s : Server) (fsm : GoFS) (p q : String)
    (f : FileH) (h : f.readDir = none) :
    serveDirectory s fsm p q f = httpError .invalid := by
  unfold serveDirectory
  rw [h]

theorem serveDirectory_readdir_error (s : Server) (fsm : GoFS) (p q : String)
    (f : FileH) (e : GoErr) (h : f.readDir = some (.error e)) :
    serveDirectory s fsm p q f = httpError e := by
  unfold serveDirectory
  rw [h]

theorem serveDirectory_readdir_ok (s : Server) (fsm : GoFS) (p q : String)
    (f : FileH) (fes : List DEntry) (h : f.readDir = some (.ok fes)) :
    serveDirectory s fsm p q f = dirLoop s fsm p q [] fes := by
  unfold serveDirectory
  rw [h]

theorem serveHTTP_eq (s : Server) (fsm : GoFS) (raw q : String) :
    serveHTTP s fsm raw q =
      (match fsm.openF (openKey (normalizePath raw)) with
       | .error e => httpError e
       | .ok f =>
         match f.stat with
         | .error e => httpError e
         | .ok fi =>
           if fi.isDir ≠ hasSlashSuffix (normalizePath raw) then
             if fi.isDir then
               relativeRedirect q (pathBase (normalizePath raw) ++ "/")
             else relativeRedirect q ("../" ++ pathBase (normalizePath raw))
           else if regexpMatch s.denyRx (normalizePath raw) then
             httpError .permission
           else if fi.isDir then serveDirectory s fsm (normalizePath raw) q f
           else serveFile s (normalizePath raw) q f fi.modTime true) := rfl

theorem serveHTTP_open_error (s : Server) (fsm : GoFS) (raw q : String)
    (e : GoErr) (h : fsm.openF (openKey (normalizePath raw)) = .error e) :
    serveHTTP s fsm raw q = httpError e := by
  rw [serveHTTP_eq, h]

theorem serveHTTP_open_ok (s : Server) (fsm : GoFS) (raw q : String)
    (f : FileH) (hopen : fsm.openF (openKey (normalizePath raw)) = .ok f) :
    serveHTTP s fsm raw q =
      (match f.stat with
       | .error e => httpError e
       | .ok fi =>
         if fi.isDir ≠ hasSlashSuffix (normalizePath raw) then
           if fi.isDir then
             relativeRedirect q (pathBase (normalizePath raw) ++ "/")
           else relativeRedirect q ("../" ++ pathBase (normalizePath raw))
         else if regexpMatch s.denyRx (normalizePath raw) then
           httpError .permission
         else if fi.isDir then serveDirectory s fsm (normalizePath raw) q f
         else serveFile s (normalizePath raw) q f fi.modTime true) := by
  rw [serveHTTP_eq, hopen]

theorem serveHTTP_stat_error (s : Server) (fsm : GoFS) (raw q : String)
    (f : FileH) (e : GoErr)
    (hopen : fsm.openF (openKey (normalizePath raw)) = .ok f)
    (hstat : f.stat = .error e) :
    serveHTTP s fsm raw q = httpError e := by
  rw [serveHTTP_open_ok s fsm raw q f hopen, hstat]

theorem serveHTTP_resolved (s : Server) (fsm : GoFS) (raw q : String)
    (f : FileH) (fi : FInfo)
    (hopen : fsm.openF (openKey (normalizePath raw)) = .ok f)
    (hstat : f.stat = .ok fi) :
    serveHTTP s fsm raw q =
      (if fi.isDir ≠ hasSlashSuffix (normalizePath raw) then
        if fi.isDir then
          relativeRedirect q (pathBase (normalizePath raw) ++ "/")
        else relativeRedirect q ("../" ++ pathBase (normalizePath raw))
      else if regexpMatch s.denyRx (normalizePath raw) then
        httpError .permission
      else if fi.isDir then serveDirectory s fsm (normalizePath raw) q f
      else serveFile s (normalizePath raw) q f fi.modTime true) := by
  rw [serveHTTP_open_ok s fsm raw q f hopen, hstat]

theorem serveFile_index_redirect (s : Server) (up q : String) (f : FileH)
    (mt : Int) (h : regexpMatch s.indexRx up = true) :
    serveFile s up q f mt true = relativeRedirect q "./" := by
  unfold serveFile
  rw [if_pos ⟨rfl, h⟩]

/-! ## Lemmas about `formatSize` -/

theorem iecExpAux_bounds :
    ∀ (fuel i : Nat), 1 ≤ i → i ≤ fuel →
      1024 ^ iecExpAux fuel i ≤ i ∧ i < 1024 ^ (iecExpAux fuel i + 1) := by
  intro fuel
  induction fuel with
  | zero => intro i h1 h2; omega
  | succ f ih =>
    intro i h1 h2
    by_cases hlt : i < 1024
    · simp only [iecExpAux, if_pos hlt]
      constructor
      · simpa using h1
      · simpa using hlt
    · simp only [iecExpAux, if_neg hlt]
      push_neg at hlt
      have hdiv1 : 1 ≤ i / 1024 := (Nat.one_le_div_iff (by norm_num)).mpr hlt
      have hdivlt : i / 1024 < i := Nat.div_lt_self (by omega) (by norm_num)
      have hdivle : i / 1024 ≤ f := by omega
      obtain ⟨hA, hB⟩ := ih (i / 1024) hdiv1 hdivle
      constructor
      · calc 1024 ^ (1 + iecExpAux f (i / 1024))
            = 1024 * 1024 ^ iecExpAux f (i / 1024) := by
              rw [pow_add, pow_one]
          _ ≤ 1024 * (i / 1024) := by
              exact Nat.mul_le_mul_left 1024 hA
          _ ≤ i := Nat.mul_div_le i 1024
      · have hmod := Nat.div_add_mod i 1024
        have hsucc : i / 1024 + 1 ≤ 1024 ^ (iecExpAux f (i / 1024) + 1) := hB
        calc i < 1024 * (i / 1024) + 1024 := by omega
          _ = 1024 * (i / 1024 + 1) := by ring
          _ ≤ 1024 * 1024 ^ (iecExpAux f (i / 1024) + 1) :=
              Nat.mul_le_mul_left 1024 hsucc
          _ = 1024 ^ (1 + iecExpAux f (i / 1024) + 1) := by
              rw [pow_add, pow_add, pow_one]
              ring

theorem iecExp_bounds (i : Nat) (h1 : 1 ≤ i) :
    1024 ^ iecExp i ≤ i ∧ i < 1024 ^ (iecExp i + 1) :=
  iecExpAux_bounds i i h1 (Nat.le_refl i)

theorem roundHalfEven_one (n : Nat) : roundHalfEven n 1 = n := by
  unfold roundHalfEven
  simp [Nat.mod_one, Nat.div_one]

theorem roundHalfEven_ge_div (n d : Nat) : n / d ≤ roundHalfEven n d := by
  unfold roundHalfEven
  split_ifs <;> omega

theorem f64Scale_small : ∀ (fuel n : Nat), n < 2 ^ 53 →
    f64Scale fuel n = 1 := by
  intro fuel n h
  cases fuel with
  | zero => rfl
  | succ f => simp only [f64Scale, if_pos h]

theorem f64Scale_pos : ∀ (fuel n : Nat), 1 ≤ f64Scale fuel n := by
  intro fuel
  induction fuel with
  | zero => intro n; exact Nat.le_refl 1
  | succ f ih =>
    intro n
    simp only [f64Scale]
    split
    · exact Nat.le_refl 1
    · have := ih (n / 2)
      omega

theorem f64Scale_mul_le : ∀ (fuel n : Nat), n ≤ fuel → 2 ^ 53 ≤ n →
    f64Scale fuel n * 2 ^ 52 ≤ n := by
  intro fuel
  induction fuel with
  | zero =>
    intro n h1 h2
    exfalso
    omega
  | succ f ih =>
    intro n h1 h2
    simp only [f64Scale, if_neg (by omega : ¬n < 2 ^ 53)]
    by_cases hm : n / 2 < 2 ^ 53
    · rw [f64Scale_small f (n / 2) hm]
      omega
    · have hrec := ih (n / 2) (by omega) (by omega)
      omega

/-- `float64(n)` is exact below 2^53. -/
theorem float64OfNat_small (n : Nat) (h : n < 2 ^ 53) :
    float64OfNat n = n := by
  unfold float64OfNat
  rw [f64Scale_small n n h, roundHalfEven_one]
  exact Nat.mul_one n

/-- Rounding to `float64` never drops a count of at least 1024 below the
loop threshold. -/
theorem float64OfNat_ge_1024 (n : Nat) (h : 1024 ≤ n) :
    1024 ≤ float64OfNat n := by
  by_cases hs : n < 2 ^ 53
  · rw [float64OfNat_small n hs]
    exact h
  · unfold float64OfNat
    have hpos := f64Scale_pos n n
    have hle := f64Scale_mul_le n n (Nat.le_refl n) (by omega)
    have hdivle : n / f64Scale n n ≤ roundHalfEven n (f64Scale n n) :=
      roundHalfEven_ge_div n (f64Scale n n)
    have hmul : n / f64Scale n n * f64Scale n n ≤
        roundHalfEven n (f64Scale n n) * f64Scale n n :=
      Nat.mul_le_mul_right _ hdivle
    have hmod := Nat.div_add_mod n (f64Scale n n)
    have hmodlt : n % f64Scale n n < f64Scale n n :=
      Nat.mod_lt n (by omega)
    have hback : f64Scale n n * (n / f64Scale n n) =
        n / f64Scale n n * f64Scale n n := Nat.mul_comm _ _
    omega

theorem float64OfInt_nonneg (i : Int) (h : 0 ≤ i) :
    float64OfInt i = (float64OfNat i.toNat : Int) := by
  unfold float64OfInt
  rw [if_neg (by omega)]

theorem formatSize_nonneg_eq (i : Int) (h0 : 0 ≤ i) :
    formatSize i =
      (if (float64OfNat i.toNat : Int) < 1024 then
        toString (float64OfNat i.toNat : Int) ++ "B"
      else
        toString (roundHalfEven (10 * float64OfNat i.toNat)
          (1024 ^ iecExp (float64OfNat i.toNat)) / 10) ++ "." ++
        toString (roundHalfEven (10 * float64OfNat i.toNat)
          (1024 ^ iecExp (float64OfNat i.toNat)) % 10) ++
        String.singleton (iecUnit (iecExp (float64OfNat i.toNat))) ++
          "iB") := by
  unfold formatSize
  rw [float64OfInt_nonneg i h0, Int.toNat_natCast]

theorem formatSize_small (i : Int) (h0 : 0 ≤ i) (h : i < 1024) :
    formatSize i = toString i ++ "B" := by
  have hsm : float64OfNat i.toNat = i.toNat :=
    float64OfNat_small i.toNat (by omega)
  rw [formatSize_nonneg_eq i h0, hsm,
    if_pos (by omega : (i.toNat : Int) < 1024),
    Int.toNat_of_nonneg h0]

theorem formatSize_large (i : Int) (h : 1024 ≤ i) :
    formatSize i =
      toString (roundHalfEven (10 * float64OfNat i.toNat)
        (1024 ^ iecExp (float64OfNat i.toNat)) / 10) ++ "." ++
      toString (roundHalfEven (10 * float64OfNat i.toNat)
        (1024 ^ iecExp (float64OfNat i.toNat)) % 10) ++
      String.singleton (iecUnit (iecExp (float64OfNat i.toNat))) ++
        "iB" := by
  have hv : 1024 ≤ float64OfNat i.toNat :=
    float64OfNat_ge_1024 i.toNat (by omega)
  rw [formatSize_nonneg_eq i (by omega),
    if_neg (by omega : ¬(float64OfNat i.toNat : Int) < 1024)]

/-! ## Claim theorems -/

theorem dirJoin_invalid (dir op name : String) (hdir : dir ≠ "")
    (h : validPath name = false) :
    dirJoin dir op name = .error .invalid := by
  unfold dirJoin
  rw [if_neg hdir, if_pos (by simp [h])]

theorem dirJoin_ok (dir op name : String) (hdir : dir ≠ "")
    (h : validPath name = true) :
    dirJoin dir op name = .ok (filepathJoin dir name) := by
  unfold dirJoin
  rw [if_neg hdir, if_neg (by simp [h])]

/-- C1 (counterexample): a request for a nonexistent path whose normalized
URL path matches the deny pattern is answered with 404 (the `Open` error),
not with a Forbidden-class 403 — the deny check runs only after the entry
has been opened and statted, so the response is not independent of whether
the entry exists. -/
theorem C1_counterexample :
    regexpMatch fixServerDenyAll.denyRx (normalizePath "/secret") = true ∧
    serveHTTP fixServerDenyAll fixEmptyFS "/secret" "" =
      .error 404 .notExist ∧
    serveHTTP fixServerDenyAll fixEmptyFS "/secret" "" ≠
      .error 403 .permission := by
  refine ⟨by decide, by decide, by decide⟩

/-- C1 (amended): for every request whose normalized URL path matches the
deny pattern AND whose entry opens and stats successfully with its
directory-ness consistent with the trailing slash, the server responds
403 Forbidden (`os.ErrPermission`); when the underlying entry does not
exist, the open error is reported (404) instead. -/
theorem C1_deny_resolved_forbidden (s : Server) (fsm : GoFS)
    (rawPath rawQuery : String) (f : FileH) (fi : FInfo)
    (hopen : fsm.openF (openKey (normalizePath rawPath)) = .ok f)
    (hstat : f.stat = .ok fi)
    (hslash : fi.isDir = hasSlashSuffix (normalizePath rawPath))
    (hdeny : regexpMatch s.denyRx (normalizePath rawPath) = true) :
    serveHTTP s fsm rawPath rawQuery = .error 403 .permission ∧
    (∀ fsm2 : GoFS,
      fsm2.openF (openKey (normalizePath rawPath)) = .error .notExist →
      serveHTTP s fsm2 rawPath rawQuery = .error 404 .notExist) := by
  constructor
  · rw [serveHTTP_resolved s fsm rawPath rawQuery f fi hopen hstat,
      if_neg (by simp [hslash]), if_pos hdeny]
    rfl
  · intro fsm2 h2
    rw [serveHTTP_open_error s fsm2 rawPath rawQuery .notExist h2]
    rfl

/-- C1 (witness): with a deny-everything pattern, the existing directory
`/docs/` is answered 403. -/
theorem C1_witness :
    serveHTTP fixServerDenyAll fixFS "/docs/" "" = .error 403 .permission :=
  (C1_deny_resolved_forbidden fixServerDenyAll fixFS "/docs/" ""
    fixDirHandle fixInfoDir (by decide) (by decide) (by decide)
    (by decide)).1

/-- C2: every operation of the rooted filesystem abstraction (`Stat`,
`Open`, `OpenFile`, `MakeDir`, `Rename`, `Remove`) rejects a name that is
not a valid slash-separated relative path with an `fs.ErrInvalid` error
before consulting the OS; absolute names and names containing a `..`
segment are invalid; and joining a valid name never escapes the root
lexically: the resolved path reassembles exactly the root's cleaned
element stack followed by the name's elements. -/
theorem C2_dirFS_validates_before_join (dir name oldName newName : String)
    (os : OsFS) (flags perm : Nat) (hdir : dir ≠ "") :
    (validPath name = false →
      dirStat dir os name = .error .invalid ∧
      dirOpen dir os name = .error .invalid ∧
      dirOpenFile dir os name flags perm = .error .invalid ∧
      dirMakeDir dir os name perm = .error .invalid ∧
      dirRemove dir os name = .error .invalid) ∧
    (validPath oldName = false →
      dirRename dir os oldName newName = .error .invalid) ∧
    (validPath oldName = true → validPath newName = false →
      dirRename dir os oldName newName = .error .invalid) ∧
    (isRooted name.data = true → validPath name = false) ∧
    (['.', '.'] ∈ splitSlash name.data → validPath name = false) ∧
    (validPath name = true →
      (filepathJoin dir name).data =
        assembleChars (isRooted dir.data)
          (cleanStack dir ++ (splitSlash name.data).filter goodSeg)) := by
  refine ⟨?_, ?_, ?_, validPath_absolute name, validPath_dotdot_seg name,
    fun h => filepathJoin_decomp dir name hdir h⟩
  · intro h
    refine ⟨?_, ?_, ?_, ?_, ?_⟩
    · unfold dirStat; rw [dirJoin_invalid dir "stat" name hdir h]
    · unfold dirOpen; rw [dirJoin_invalid dir "open" name hdir h]
    · unfold dirOpenFile; rw [dirJoin_invalid dir "open" name hdir h]
    · unfold dirMakeDir; rw [dirJoin_invalid dir "mkdir" name hdir h]
    · unfold dirRemove; rw [dirJoin_invalid dir "remove" name hdir h]
  · intro h
    unfold dirRename
    rw [dirJoin_invalid dir "rename" oldName hdir h]
  · intro hok h
    unfold dirRename
    rw [dirJoin_ok dir "rename" oldName hdir hok,
      dirJoin_invalid dir "rename" newName hdir h]

/-- C2 (witness): the absolute name `/etc/passwd` is rejected as invalid,
and joining the valid name `sub/a.txt` under root `root` resolves to
`root/sub/a.txt`, inside the root. -/
theorem C2_witness :
    dirOpen "root" fixOS "/etc/passwd" = .error .invalid ∧
    filepathJoin "root" "sub/a.txt" = "root/sub/a.txt" := by
  constructor
  · exact ((C2_dirFS_validates_before_join "root" "/etc/passwd" "x" "x"
      fixOS 0 0 (by decide)).1 (by decide)).2.1
  · have h := (C2_dirFS_validates_before_join "root" "sub/a.txt" "x" "x"
      fixOS 0 0 (by decide)).2.2.2.2.2 (by decide)
    exact String.ext (by rw [h]; decide)

/-- C3 (counterexample): a directory handle lacking enumeration capability
(`os.ErrInvalid`) is answered with status 500, not 400 — `httpError` has
no 400 branch; `os.ErrInvalid` falls into the `default` case. -/
theorem C3_counterexample :
    serveDirectory fixServer fixFS "/docs/" "" fixFileHandle =
      .error 500 .invalid ∧
    (HResp.error 500 .invalid) ≠ .error 400 .invalid := by
  refine ⟨by decide, by decide⟩

/-- C3 (amended): the dispatcher maps the error taxonomy to HTTP statuses
as NotExist→404, PermissionDenied→403, and Invalid (e.g., a directory
handle lacking enumeration capability) together with any other I/O failure
→500; on any enumeration failure the response is the mapped error and no
(partial) listing is rendered. -/
theorem C3_error_mapping (s : Server) (fsm : GoFS) (p q : String)
    (f : FileH) :
    httpError .notExist = .error 404 .notExist ∧
    httpError .permission = .error 403 .permission ∧
    httpError .invalid = .error 500 .invalid ∧
    httpError .other = .error 500 .other ∧
    (f.readDir = none →
      serveDirectory s fsm p q f = .error 500 .invalid) ∧
    (∀ e, f.readDir = some (.error e) →
      serveDirectory s fsm p q f = httpError e ∧
      ∀ l, serveDirectory s fsm p q f ≠ .listing l) := by
  refine ⟨rfl, rfl, rfl, rfl, ?_, ?_⟩
  · intro h
    rw [serveDirectory_no_readdir s fsm p q f h]
    rfl
  · intro e h
    refine ⟨serveDirectory_readdir_error s fsm p q f e h, ?_⟩
    intro l
    rw [serveDirectory_readdir_error s fsm p q f e h]
    exact httpError_ne_listing e l

/-- C3 (witness): a non-enumerable handle yields 500, and a failing
`ReadDir` yields the mapped status of its error (500 for a generic I/O
failure). -/
theorem C3_witness :
    serveDirectory fixServer fixFS "/docs/" "" fixFileHandle =
      .error 500 .invalid ∧
    serveDirectory fixServer fixFS "/docs/" "" fixBadDirHandle =
      .error 500 .other := by
  refine ⟨(C3_error_mapping fixServer fixFS "/docs/" ""
    fixFileHandle).2.2.2.2.1 rfl, ?_⟩
  have h := ((C3_error_mapping fixServer fixFS "/docs/" ""
    fixBadDirHandle).2.2.2.2.2 .other rfl).1
  rw [h]
  rfl

/-- C4: for every existing directory requested without a trailing slash
the server issues a permanent (301) relative redirect to
`basename + "/"`, and for every existing file requested with a trailing
slash a 301 redirect to `"../" + basename`; in both cases the original
query string is appended unchanged (after a `?`, only when nonempty). -/
theorem C4_trailing_slash_redirect (s : Server) (fsm : GoFS)
    (rawPath rawQuery : String) (f : FileH) (fi : FInfo)
    (hopen : fsm.openF (openKey (normalizePath rawPath)) = .ok f)
    (hstat : f.stat = .ok fi) :
    (fi.isDir = true → hasSlashSuffix (normalizePath rawPath) = false →
      serveHTTP s fsm rawPath rawQuery =
        relativeRedirect rawQuery
          (pathBase (normalizePath rawPath) ++ "/")) ∧
    (fi.isDir = false → hasSlashSuffix (normalizePath rawPath) = true →
      serveHTTP s fsm rawPath rawQuery =
        relativeRedirect rawQuery
          ("../" ++ pathBase (normalizePath rawPath))) ∧
    (∀ u q2 : String, relativeRedirect q2 u =
      .redirect 301 (if q2 ≠ "" then u ++ "?" ++ q2 else u)) := by
  refine ⟨?_, ?_, fun _ _ => rfl⟩
  · intro hd hs
    rw [serveHTTP_resolved s fsm rawPath rawQuery f fi hopen hstat,
      if_pos (by simp [hd, hs]), if_pos hd]
  · intro hd hs
    rw [serveHTTP_resolved s fsm rawPath rawQuery f fi hopen hstat,
      if_pos (by simp [hd, hs]), if_neg (by simp [hd])]

set_option maxHeartbeats 2000000 in
/-- C4 (witness): `/docs` (an existing directory, no trailing slash) with
query `q=1` redirects to `docs/?q=1`, and `/docs/a.txt/` (an existing
file with a trailing slash) redirects to `../a.txt`. -/
theorem C4_witness :
    serveHTTP fixServer fixFS "/docs" "q=1" = .redirect 301 "docs/?q=1" ∧
    serveHTTP fixServer fixFS "/docs/a.txt/" "" =
      .redirect 301 "../a.txt" := by
  constructor
  · have h := (C4_trailing_slash_redirect fixServer fixFS "/docs" "q=1"
      fixDirHandle fixInfoDir (by decide) (by decide)).1 (by decide)
      (by decide)
    rw [h]; decide
  · have h := (C4_trailing_slash_redirect fixServer fixFS "/docs/a.txt/" ""
      fixFileHandle fixInfoFile (by decide) (by decide)).2.1 (by decide)
      (by decide)
    rw [h]; decide

theorem normalizePath_mk (l : List Char) :
    normalizePath ⟨l⟩ = ⟨normChars l⟩ := rfl

/-- C5 (counterexample): path normalization as implemented does not
satisfy the claim on every input string: the empty path normalizes to
`"/."` (not `"/"`, and it contains a `.` segment), and normalization is
not idempotent at the input `".."` (which normalizes to `"/.."`, while
renormalizing that yields `"/"`). -/
theorem C5_counterexample :
    normalizePath "" = "/." ∧ normalizePath "" ≠ "/" ∧
    normalizePath (normalizePath "..") ≠ normalizePath ".." := by
  refine ⟨by decide, by decide, by decide⟩

/-- C5 (amended): normalization is total, and its result always begins
with `/`; for every input that itself begins with `/` (which every HTTP
request path does), the result contains no `.` or `..` segments and
normalization is idempotent; an originally-present trailing slash is
preserved; and the rooted empty and all-`..` paths `"/"`, `"/.."`,
`"/../.."`, … all normalize to `"/"`. -/
theorem C5_normalization_amended :
    (∀ p : String, isRooted (normalizePath p).data = true) ∧
    (∀ p : String, hasSlashSuffix p = true →
      hasSlashSuffix (normalizePath p) = true) ∧
    (∀ p : String, isRooted p.data = true →
      normalizePath (normalizePath p) = normalizePath p) ∧
    (∀ p : String, isRooted p.data = true →
      ∀ seg ∈ splitSlash (normalizePath p).data,
        seg ≠ ['.'] ∧ seg ≠ ['.', '.']) ∧
    (∀ n : Nat, normalizePath (rootedDotDots n) = "/") := by
  refine ⟨?_, ?_, ?_, ?_, ?_⟩
  · intro p
    exact normChars_isRooted p.data
  · intro p h
    exact normChars_preserves_trailing p.data h
  · intro p h
    exact String.ext (normChars_idem p.data h)
  · intro p h
    exact normChars_no_dot_segs p.data h
  · intro n
    cases n with
    | zero => decide
    | succ m =>
      have hform : rootedDotDots (m + 1) = ⟨dotdotChars (m + 1)⟩ := by
        unfold rootedDotDots
        rw [if_neg (Nat.succ_ne_zero m)]
      rw [hform, normalizePath_mk, normChars_dotdotChars m]

/-- C5 (witness): a concrete rooted path is a fixed point of repeated
normalization. -/
theorem C5_witness :
    normalizePath (normalizePath "/a/../b/") = normalizePath "/a/../b/" :=
  C5_normalization_amended.2.2.1 "/a/../b/" (by decide)

/-- C6: whenever `serveDirectory` renders a listing, every row of the
model comes from a resolved entry whose full URL path
(`requestPath + "/" + name`) matches neither the hide nor the deny
pattern; a nil pattern never matches any path; and with no patterns
configured the listing contains exactly one row per resolvable entry —
nothing is filtered out. -/
theorem C6_listing_excludes_hidden_denied (s : Server) (fsm : GoFS)
    (p q : String) (f : FileH) :
    (∀ l, serveDirectory s fsm p q f = .listing l →
      ∀ e ∈ l, ∃ fi, e = mkEntry fi ∧
        regexpMatch s.hideRx (p ++ "/" ++ fi.name) = false ∧
        regexpMatch s.denyRx (p ++ "/" ++ fi.name) = false) ∧
    (∀ path, regexpMatch none path = false) ∧
    (∀ (sf : Bool) (fes : List DEntry), f.readDir = some (.ok fes) →
      serveDirectory ⟨none, none, none, sf⟩ fsm p q f =
        .listing ((fes.filterMap (resolveInfo fsm p)).map mkEntry)) := by
  refine ⟨?_, fun _ => rfl, ?_⟩
  · intro l hl e he
    cases hrd : f.readDir with
    | none =>
      rw [serveDirectory_no_readdir s fsm p q f hrd] at hl
      exact absurd hl (httpError_ne_listing _ l)
    | some r =>
      cases r with
      | error e2 =>
        rw [serveDirectory_readdir_error s fsm p q f e2 hrd] at hl
        exact absurd hl (httpError_ne_listing _ l)
      | ok fes =>
        rw [serveDirectory_readdir_ok s fsm p q f fes hrd] at hl
        rcases dirLoop_listing_members s fsm p q fes [] l hl e he with h | h
        · cases h
        · exact h
  · intro sf fes h
    rw [serveDirectory_readdir_ok _ fsm p q f fes h,
      dirLoop_no_patterns fsm p q sf fes []]
    simp

/-- C6 (witness): with no patterns, the listing of `/docs/` contains
exactly the row for `a.txt`. -/
theorem C6_witness :
    serveDirectory fixServer fixFS "/docs/" "" fixDirHandle =
      .listing [{ name := "a.txt", size := 10, date := 7 }] := by
  have h : serveDirectory fixServer fixFS "/docs/" "" fixDirHandle =
      .listing ((([fixEntry]).filterMap
        (resolveInfo fixFS "/docs/")).map mkEntry) :=
    (C6_listing_excludes_hidden_denied fixServer fixFS "/docs/" ""
      fixDirHandle).2.2 true [fixEntry] rfl
  rw [h]
  decide

/-- C7: during enumeration the first resolvable, non-hidden, non-denied
entry whose full URL path matches the index pattern aborts listing
construction — the request path is rewritten to that entry's full URL
path and its opened file is delegated to `serveFile` with redirects
disabled; conversely, `serveFile` on a path matching the index pattern
with redirects allowed answers with a relative redirect to `./` instead
of the file's bytes. -/
theorem C7_index_handling (s : Server) (fsm : GoFS) (p q : String)
    (stat : Except GoErr FInfo) (seek : Bool) (ra : Except GoErr Unit)
    (pre post : List DEntry) (fe : DEntry) (fi : FInfo) (f2 : FileH) :
    ((∀ e ∈ pre, resolveInfo fsm p e = none ∨
        ∃ gi, resolveInfo fsm p e = some gi ∧
          (regexpMatch s.hideRx (p ++ "/" ++ gi.name) = true ∨
           regexpMatch s.denyRx (p ++ "/" ++ gi.name) = true ∨
           regexpMatch s.indexRx (p ++ "/" ++ gi.name) = false)) →
      resolveInfo fsm p fe = some fi →
      regexpMatch s.hideRx (p ++ "/" ++ fi.name) = false →
      regexpMatch s.denyRx (p ++ "/" ++ fi.name) = false →
      regexpMatch s.indexRx (p ++ "/" ++ fi.name) = true →
      fsm.openF (entryKey p fi.name) = .ok f2 →
      serveDirectory s fsm p q
          ⟨stat, some (.ok (pre ++ fe :: post)), seek, ra⟩ =
        serveFile s (p ++ "/" ++ fi.name) q f2 fi.modTime false) ∧
    (∀ (f : FileH) (mt : Int), regexpMatch s.indexRx p = true →
      serveFile s p q f mt true = relativeRedirect q "./") := by
  constructor
  · intro hpre hres hh hd hi hopen
    rw [serveDirectory_readdir_ok s fsm p q _ _ rfl]
    exact dirLoop_index_abort s fsm p q fe fi f2 hres hh hd hi hopen
      pre hpre [] post
  · intro f mt h
    exact serveFile_index_redirect s p q f mt h

set_option maxHeartbeats 2000000 in
/-- C7 (witness): with an index pattern matching `/docs//a.txt`, listing
`/docs/` short-circuits into serving the bytes of `a.txt` at the
rewritten path, and a direct `serveFile` of that path with redirects
allowed yields a relative redirect to `./`. -/
theorem C7_witness :
    serveDirectory fixServerIndex fixFS "/docs/" "" fixDirHandle =
      .content "/docs//a.txt" 7 ∧
    serveFile fixServerIndex "/docs//a.txt" "" fixFileHandle 7 true =
      .redirect 301 "./" := by
  constructor
  · have h := (C7_index_handling fixServerIndex fixFS "/docs/" ""
      (.ok fixInfoDir) true (.ok ()) [] [] fixEntry fixInfoFile
      fixFileHandle).1 (by intro e he; cases he) (by decide) (by decide)
      (by decide) (by decide) (by decide)
    exact h.trans (by decide)
  · have h := (C7_index_handling fixServerIndex fixFS "/docs//a.txt" ""
      (.ok fixInfoDir) true (.ok ()) [] [] fixEntry fixInfoFile
      fixFileHandle).2 fixFileHandle 7 (by decide)
    exact h.trans (by decide)

/-- C8: `formatSize` renders the claimed examples exactly; the
`int64`→`float64` conversion the code starts with is the identity on
every count below 2^53, so every byte count below 1024 renders as the
integer with a `B` suffix; and for every count `i` of at least 1024, the
division loop runs on the rounded float value `v = float64OfNat i`
exactly `iecExp v` times — the unique exponent with
`1024^k ≤ v < 1024^(k+1)`, which is at least 1 — and the value renders
with one decimal (ties to even) and the IEC unit prefix selected by that
exponent.  The example 2^60−1 exercises the conversion rounding: its
float value is 2^60, so the loop divides six times and prints
`"1.0EiB"`. -/
theorem C8_formatSize (i : Int) :
    formatSize 0 = "0B" ∧ formatSize 1024 = "1.0KiB" ∧
    formatSize 1536 = "1.5KiB" ∧ formatSize 1048576 = "1.0MiB" ∧
    formatSize (2 ^ 60 - 1) = "1.0EiB" ∧
    (0 ≤ i → i < 2 ^ 53 → float64OfNat i.toNat = i.toNat) ∧
    (0 ≤ i → i < 1024 → formatSize i = toString i ++ "B") ∧
    (1024 ≤ i →
      1024 ^ iecExp (float64OfNat i.toNat) ≤ float64OfNat i.toNat ∧
      float64OfNat i.toNat < 1024 ^ (iecExp (float64OfNat i.toNat) + 1) ∧
      1 ≤ iecExp (float64OfNat i.toNat) ∧
      formatSize i =
        toString (roundHalfEven (10 * float64OfNat i.toNat)
          (1024 ^ iecExp (float64OfNat i.toNat)) / 10) ++ "." ++
        toString (roundHalfEven (10 * float64OfNat i.toNat)
          (1024 ^ iecExp (float64OfNat i.toNat)) % 10) ++
        String.singleton (iecUnit (iecExp (float64OfNat i.toNat))) ++
          "iB") := by
  refine ⟨by decide, by decide, by decide, by decide, by decide, ?_, ?_, ?_⟩
  · intro h0 h53
    exact float64OfNat_small i.toNat (by omega)
  · intro h0 h2
    exact formatSize_small i h0 h2
  · intro h
    have hv : 1024 ≤ float64OfNat i.toNat :=
      float64OfNat_ge_1024 i.toNat (by omega)
    obtain ⟨hA, hB⟩ := iecExp_bounds (float64OfNat i.toNat) (by omega)
    refine ⟨hA, hB, ?_, formatSize_large i h⟩
    rcases Nat.eq_zero_or_pos (iecExp (float64OfNat i.toNat)) with h0 | h0
    · exfalso
      rw [h0, pow_one] at hB
      omega
    · exact h0

/-- C8 (witness): the general branches evaluated at 500 bytes and at
2048 bytes. -/
theorem C8_witness :
    formatSize 500 = "500B" ∧ formatSize 2048 = "2.0KiB" := by
  constructor
  · exact ((C8_formatSize 500).2.2.2.2.2.2.1 (by decide) (by decide)).trans
      (by decide)
  · exact ((C8_formatSize 2048).2.2.2.2.2.2.2 (by decide)).2.2.2.trans
      (by decide)

/-- C9 (code bug): the Go `formatTime` and the JavaScript `formatDate`
are NOT equivalent: for an in-window timestamp at noon (hour 12) Go
renders `12:30 PM` while the JavaScript clock branch —
`if (date.getHours() > 12)` — labels it `12:30 AM`; at midnight (hour 0)
Go renders `12:05 AM` while JavaScript renders `0:05 AM` with a zero
hour.  The spec's claim that both render a correct 12-hour clock is the
evident intent (the Go side satisfies it); the JavaScript hour/label
computation is the slip. -/
theorem C9_time_format_divergence :
    formatTime fixNoon fixNow = "12:30 PM" ∧
    formatDate fixNoon fixNow = "12:30 AM" ∧
    formatTime fixNoon fixNow ≠ formatDate fixNoon fixNow ∧
    formatTime fixMidnight fixNow = "12:05 AM" ∧
    formatDate fixMidnight fixNow = "0:05 AM" := by
  refine ⟨by decide, by decide, by decide, by decide, by decide⟩

/-- C10: during enumeration every entry whose resolved metadata is
unavailable is silently dropped — the loop's outcome equals its outcome
on the entry list with unresolvable entries filtered away — and this
applies to any plain (non-symlink) entry whose `Info()` yields no
`FileInfo`, not only to broken symlinks; the remaining entries still
produce the normal (200) listing response through the same loop. -/
theorem C10_unresolvable_entries_dropped (s : Server) (fsm : GoFS)
    (p q : String) (acc : List FileEntry) (fes : List DEntry)
    (name : String) (inf : Option FInfo) (stat : Except GoErr FInfo)
    (seek : Bool) (ra : Except GoErr Unit) :
    dirLoop s fsm p q acc fes =
      dirLoop s fsm p q acc
        (fes.filter (fun fe => (resolveInfo fsm p fe).isSome)) ∧
    resolveInfo fsm p ⟨name, false, inf⟩ = inf ∧
    dirLoop s fsm p q acc (fixEntryBad :: fes) =
      dirLoop s fsm p q acc fes ∧
    serveDirectory s fsm p q ⟨stat, some (.ok fes), seek, ra⟩ =
      dirLoop s fsm p q [] fes := by
  refine ⟨dirLoop_drops_unresolved s fsm p q fes acc, ?_, ?_,
    serveDirectory_readdir_ok s fsm p q _ fes rfl⟩
  · unfold resolveInfo
    simp
  · exact dirLoop_cons_none s fsm p q acc fixEntryBad fes
      (by unfold resolveInfo; simp [fixEntryBad])
